import Mathlib

/-!
# bmf2bdf: converter from the BMF bitmap font format to BDF

Shallow embedding of `tools/font/bmf2bdf/bmf2bdf.c`.

* The C globals are the fields of `Globals`; every C function that touches
  them is a function `Globals → Globals` (explicit state passing).
* The input file is the list of its bytes; the stream position is the list
  of bytes not yet read.
* `bdf_fp` is `stdout` from the first statement of `main` on, so its `NULL`
  guards never fire; the text written to it is the field `out`, one `Char`
  per byte written (the `Char` whose code point is the byte).
* `int` variables are unbounded `Int`s: within one conversion started from
  the zeroed accumulators no `int` computation leaves the 32-bit range
  (at most 65535 glyphs of width at most 255).
* The global `threshold` is a field like the others; no function reads it.
* The fixed buffers `palette`, `title` and `bitmap` are zero-initialised
  statics; each is the list of its leading entries, all entries beyond the
  end of the list being 0.
* A division by zero stops the C program: `cDiv` is `none` there.
* A read into a buffer too small for it is undefined in C; the only such read
  is the palette read with a negative `numColors` on a long file, singled out
  by `paletteOverrun`.
-/

namespace Bmf2Bdf

/-! ## Machine integers and the byte stream -/

abbrev Byte := Fin 256

/-- Value of a byte stored in an `int8_t` (two's complement). -/
def toInt8 (b : Nat) : Int := if b < 128 then (b : Int) else (b : Int) - 256

/-- The conversion `(uint8_t)c` of an `int`. -/
def toUInt8 (c : Int) : Nat := (c % 256).toNat

/-- The conversion of an `int` to `size_t` (64 bit). -/
def toSizeT (c : Int) : Nat := (c % 2 ^ 64).toNat

/-- Function `fgetc`: the next byte, or `EOF` (-1) at the end of the stream. -/
def fgetc : List Byte → Int × List Byte
  | [] => (-1, [])
  | b :: rest => ((b.val : Int), rest)

/-- Call `fread(buf, size, 1, file)`: `some` bytes when it returns 1. With
`size = 0` it returns 0 and leaves the stream alone; on a short read it
returns 0 with the stream at its end (the buffer is then indeterminate and
the model leaves it unchanged). The destination is taken to hold what is
read: that is so for every call of the program but the palette read with a
negative `numColors`, see `paletteOverrun`. -/
def fread (size : Nat) (file : List Byte) : Option (List Byte) × List Byte :=
  if size = 0 then (none, file)
  else if size ≤ file.length then (some (file.take size), file.drop size)
  else (none, [])

/-- Function `strncmp` on NUL-terminated byte strings (a list that ends reads as NUL). -/
def strncmp : List Nat → List Nat → Nat → Int
  | _, _, 0 => 0
  | s1, s2, n + 1 =>
    let c1 := s1.headD 0
    let c2 := s2.headD 0
    if c1 ≠ c2 then (c1 : Int) - (c2 : Int)
    else if c1 = 0 then 0
    else strncmp s1.tail s2.tail n

/-- The string literal `"\xE1\xE6\xD5\x1A"`. -/
def magic : List Nat := [0xE1, 0xE6, 0xD5, 0x1A, 0]

/-! ## Global state -/

structure Globals where
  threshold : Nat
  optionForceProportional : Int
  optionAddExtraSpace : Int
  lineHeight : Int
  sizeOver : Int
  sizeUnder : Int
  addSpace : Int
  sizeInner : Int
  usedColors : Int
  highestColor : Int
  alphaBits : Int
  extraPalettes : Int
  reserved : Int
  numColors : Int
  titleLength : Nat
  asciiChars : Nat
  whichChar : Nat
  palette : List Byte
  title : List Byte
  tablo : List Byte
  bitmap : List Byte
  totalGlyphSize : Int
  cntGlyphSize : Int
  averageGlyphSize : Int
  out : List Char

/-- The globals at program start, with the two options as parsed by `main`. -/
def initGlobals (optP optX : Int) : Globals :=
  { threshold := 128, optionForceProportional := optP, optionAddExtraSpace := optX,
    lineHeight := 0, sizeOver := 0, sizeUnder := 0, addSpace := 0,
    sizeInner := 0, usedColors := 0, highestColor := 0, alphaBits := 0,
    extraPalettes := 0, reserved := 0, numColors := 0, titleLength := 0,
    asciiChars := 0, whichChar := 0, palette := [], title := [],
    tablo := [0, 0, 0, 0, 0], bitmap := [],
    totalGlyphSize := 0, cntGlyphSize := 0, averageGlyphSize := 0, out := [] }

/-- Raw byte `k` of a buffer (0 beyond its stored entries). -/
def byteAt (buf : List Byte) (k : Nat) : Nat := (buf.getD k 0).val

/-- Call `fprintf(bdf_fp, ...)` with the formatted text `s`. -/
def fprintf (g : Globals) (s : List Char) : Globals := { g with out := g.out ++ s }

/-- Text of `%d`. -/
def fmtD (i : Int) : List Char := (toString i).toList

/-- Text of `%u`. -/
def fmtU (n : Nat) : List Char := (toString n).toList

/-- Text of `%s`: the bytes before the first NUL. -/
def fmtS (buf : List Byte) : List Char :=
  (buf.takeWhile (fun b => b ≠ 0)).map (fun b => Char.ofNat b.val)

/-! ## The functions of bmf2bdf.c -/

def write_bdf_header (g : Globals) : Globals :=
  let g := fprintf g "STARTFONT 2.1\n".toList
  let g := fprintf g "FONT".toList
  let g := fprintf g (" \"".toList ++ fmtS g.title ++ "\"\n".toList)
  let g := fprintf g "SIZE 16 75 75\n".toList
  let g := fprintf g "FONTBOUNDINGBOX 16 16 0 0\n".toList
  let g := fprintf g "STARTPROPERTIES 3\n".toList
  let g := fprintf g "COPYRIGHT \"http://bmf.php5.cz\"".toList
  let g := fprintf g "FONT_ASCENT 0\n".toList
  let g := fprintf g "FONT_DESCENT 0\n".toList
  let g := fprintf g "ENDPROPERTIES\n".toList
  fprintf g ("CHARS ".toList ++ fmtD (g.asciiChars : Int) ++ "\n".toList)

def get_pixel (g : Globals) (x y : Int) : Nat :=
  let width : Int := (byteAt g.tablo 0 : Int)
  let height : Int := (byteAt g.tablo 1 : Int)
  if x < 0 then 0
  else if x ≥ width then 0
  else if y < 0 then 0
  else if y ≥ height then 0
  else
    let idx := byteAt g.bitmap (x + y * width).toNat
    if idx = 0 then 0 else 1

def get_pixel_byte (g : Globals) (x y : Int) : Nat :=
  (List.range 8).foldl
    (fun b i => ((b <<< 1) % 256) ||| get_pixel g (x + (i : Int)) y) 0

def write_4bit (g : Globals) (x : Nat) : Globals :=
  if x < 10 then fprintf g [Char.ofNat ((x + 48) % 256)]
  else fprintf g [Char.ofNat ((x - 10 + 97) % 256)]

def write_byte (g : Globals) (x : Nat) : Globals :=
  let g := write_4bit g (x >>> 4)
  write_4bit g (x &&& 15)

/-- The loop `while ( x < width ) { write_byte(get_pixel_byte(x,y)); x+=8; }`;
`x` grows in every turn, so `width` turns of fuel always suffice. -/
def rowLoop (width y : Nat) : Nat → Nat → Globals → Globals
  | 0, _, g => g
  | fuel + 1, x, g =>
    if x < width then
      rowLoop width y fuel (x + 8) (write_byte g (get_pixel_byte g (x : Int) (y : Int)))
    else g

def write_bdf_bitmap (g : Globals) (encoding : Nat) : Globals :=
  let width := byteAt g.tablo 0
  let height := byteAt g.tablo 1
  let relx := toInt8 (byteAt g.tablo 2)
  let rely := toInt8 (byteAt g.tablo 3)
  let dwidth := toInt8 (byteAt g.tablo 4) + g.addSpace
  let dwidth :=
    if g.optionForceProportional ≠ 0 then
      if width = 0 then g.averageGlyphSize + relx + g.addSpace
      else (width : Int) + relx + g.addSpace
    else dwidth
  let dwidth := if g.optionAddExtraSpace ≠ 0 then dwidth + 1 else dwidth
  let g := fprintf g ("STARTCHAR ".toList ++ fmtU encoding ++ "\n".toList)
  let g := fprintf g ("ENCODING ".toList ++ fmtU encoding ++ "\n".toList)
  let g := fprintf g ("DWIDTH ".toList ++ fmtD dwidth ++ " 0\n".toList)
  let g := fprintf g ("BBX ".toList ++ fmtD (width : Int) ++ " ".toList
    ++ fmtD (height : Int) ++ " ".toList ++ fmtD relx ++ " ".toList
    ++ fmtD (-(g.sizeOver + (height : Int) + rely)) ++ "\n".toList)
  let g := fprintf g "BITMAP\n".toList
  let g := (List.range height).foldl
    (fun g y => fprintf (rowLoop width y width 0 g) "\n".toList) g
  fprintf g "ENDCHAR\n".toList

def readWord (file : List Byte) : Nat × List Byte :=
  let r1 := fgetc file
  let l := toUInt8 r1.1
  let r2 := fgetc r1.2
  let h := toUInt8 r2.1
  ((h * 256 + l) % 65536, r2.2)

/-- Overwrite the leading entries of a buffer with freshly read bytes. -/
def store (data buf : List Byte) : List Byte := data ++ buf.drop data.length

/-- The statement `palette[i] *= 4` on a `uint8_t`. -/
def times4 (b : Byte) : Byte := ⟨(b.val * 4) % 256, Nat.mod_lt _ (by decide)⟩

/-- The operator `/` on `int`: the quotient truncated toward zero, and not
defined for a zero divisor (the program is stopped by a trap). -/
def cDiv (a b : Int) : Option Int := if b = 0 then none else some (Int.tdiv a b)

/-- The three statements of the width estimator for a glyph of width `w`:
`totalGlyphSize += w; cntGlyphSize++; averageGlyphSize = (totalGlyphSize*2) /
(cntGlyphSize*3);`. The result is `none` when the division is by zero. -/
def estimatorUpdate (g : Globals) (w : Nat) : Option Globals :=
  let total := g.totalGlyphSize + (w : Int)
  let cnt := g.cntGlyphSize + 1
  match cDiv (total * 2) (cnt * 3) with
  | some avg =>
    some { g with totalGlyphSize := total, cntGlyphSize := cnt, averageGlyphSize := avg }
  | none => none

/-- The part of the glyph loop body after the reads: the width estimator in
the analysis pass, `write_bdf_bitmap(whichChar)` otherwise. Where the
estimator divides by zero the C program stops; the model goes on with the
globals as they were (no run from `main` gets there: the count is at least 0
before every update, see `AccInv`). -/
def glyphAction (isAnalyze : Int) (g : Globals) : Globals :=
  let w := byteAt g.tablo 0
  if isAnalyze ≠ 0 then
    if (65 ≤ g.whichChar ∧ g.whichChar ≤ 90) ∨ (97 ≤ g.whichChar ∧ g.whichChar ≤ 122) then
      match estimatorUpdate g w with
      | some g' => g'
      | none => g
    else g
  else write_bdf_bitmap g g.whichChar

/-- The loop `for (i = 0; i < asciiChars; i++)` of `processBMF`, by the
number of turns still to run; result: return value, globals, unread input. -/
def glyphLoop (isAnalyze : Int) : Nat → List Byte → Globals → Int × Globals × List Byte
  | 0, file, g => (1, g, file)
  | n + 1, file, g =>
    let r := fgetc file
    let g := { g with whichChar := toUInt8 r.1 }
    match fread 5 r.2 with
    | (none, file) => (0, g, file)
    | (some t, file) =>
      let g := { g with tablo := t }
      let w := byteAt g.tablo 0
      let h := byteAt g.tablo 1
      let bitmapSize := (w * h) % 65536
      if bitmapSize > 0 then
        match fread bitmapSize file with
        | (none, file) => (0, g, file)
        | (some bm, file) =>
          glyphLoop isAnalyze n file (glyphAction isAnalyze { g with bitmap := store bm g.bitmap })
      else glyphLoop isAnalyze n file (glyphAction isAnalyze g)

/-- Lines 223 to 264 of `processBMF`, from the first `fread` to
`asciiChars = readWord(file)`; `error` is an exit `return fclose(file), 0`.
Both carry the globals and the unread input at that point. -/
def readHeader (content : List Byte) (g : Globals) :
    Except (Globals × List Byte) (Globals × List Byte) :=
  match fread 17 content with
  | (none, file) => .error (g, file)
  | (some buffer, file) =>
    let version := toInt8 (byteAt buffer 4)
    if strncmp (buffer.map Fin.val) magic 4 ≠ 0 ∨ (version ≠ 0x11 ∧ version ≠ 0x12) then
      .error (g, file)
    else
      let g := { g with
        lineHeight := toInt8 (byteAt buffer 5), sizeOver := toInt8 (byteAt buffer 6),
        sizeUnder := toInt8 (byteAt buffer 7), addSpace := toInt8 (byteAt buffer 8),
        sizeInner := toInt8 (byteAt buffer 9), usedColors := toInt8 (byteAt buffer 10),
        highestColor := toInt8 (byteAt buffer 11), alphaBits := toInt8 (byteAt buffer 12),
        extraPalettes := toInt8 (byteAt buffer 13), reserved := toInt8 (byteAt buffer 14),
        numColors := toInt8 (byteAt buffer 16) }
      match fread (toSizeT (g.numColors * 3)) file with
      | (none, file) => .error (g, file)
      | (some pal, file) =>
        let buf := store pal g.palette
        let n := (g.numColors * 3).toNat
        let g := { g with palette := (buf.take n).map times4 ++ buf.drop n }
        let r := fgetc file
        let g := { g with titleLength := toUInt8 r.1 }
        match fread g.titleLength r.2 with
        | (none, file) => .error (g, file)
        | (some t, file) =>
          let g := { g with title := t ++ (0 : Byte) :: g.title.drop (g.titleLength + 1) }
          let rw := readWord file
          .ok ({ g with asciiChars := rw.1 }, rw.2)

/-- The palette read overruns its buffer: a negative `numColors` converts to a
size of at least 2^64 - 384, `fread` then stores every byte left in the file,
and more than 768 of them do not fit `palette[256*3]`. C leaves the behaviour
undefined there; the model (a failed read, all buffers unchanged) describes
the program only on inputs where this is `false`. -/
def paletteOverrun (content : List Byte) : Bool :=
  decide (toInt8 (byteAt content 16) < 0) && decide (17 + 768 < content.length)

/-- Function `processBMF` on the content of the opened file: `readHeader`,
then the header text in the emission pass, then the glyph loop. Result:
return value, globals, unread input at `fclose`. -/
def processBMF (content : List Byte) (isAnalyze : Int) (g : Globals) :
    Int × Globals × List Byte :=
  match readHeader content g with
  | .error (g, file) => (0, g, file)
  | .ok (g, file) =>
    let g := if isAnalyze = 0 then write_bdf_header g else g
    glyphLoop isAnalyze g.asciiChars file g

/-- The two calls at the end of `main`, with the options already parsed into
`optP` (`-p`) and `optX` (`-x`) and the named file holding `content`. -/
def main (optP optX : Int) (content : List Byte) : Globals :=
  let g := initGlobals optP optX
  let r1 := processBMF content 1 g
  let r2 := processBMF content 0 r1.2.1
  r2.2.1


/-! ## Reference definitions (written from the specification) -/

/-- One lowercase hexadecimal digit. -/
def hexDigit (x : Nat) : Char :=
  if x < 10 then Char.ofNat ((x + 48) % 256) else Char.ofNat ((x - 10 + 97) % 256)

/-- A byte as two hex nibbles, high nibble first. -/
def hexByte (v : Nat) : List Char := [hexDigit (v >>> 4), hexDigit (v &&& 15)]

/-- Width and height of the current glyph: the first two metric bytes, unsigned. -/
def glyphWidth (g : Globals) : Nat := byteAt g.tablo 0

def glyphHeight (g : Globals) : Nat := byteAt g.tablo 1

/-- Packed bytes of row `y`: one byte for each `x = 0, 8, 16, ...` below the width. -/
def rowBytes (g : Globals) (y : Nat) : List Nat :=
  (List.range ((glyphWidth g + 7) / 8)).map (fun j => get_pixel_byte g ((8 * j : Nat) : Int) (y : Int))

/-- Text of row `y`: its packed bytes in hex, then a newline. -/
def rowText (g : Globals) (y : Nat) : List Char :=
  (rowBytes g y).flatMap hexByte ++ "\n".toList

/-- The advance width of the current glyph (DWIDTH), by policy. -/
def dwidthOf (g : Globals) : Int :=
  (if g.optionForceProportional ≠ 0 then
    (if glyphWidth g = 0 then g.averageGlyphSize + toInt8 (byteAt g.tablo 2) + g.addSpace
     else (glyphWidth g : Int) + toInt8 (byteAt g.tablo 2) + g.addSpace)
   else toInt8 (byteAt g.tablo 4) + g.addSpace)
  + (if g.optionAddExtraSpace ≠ 0 then 1 else 0)

/-- The two lines `STARTCHAR e` and `ENCODING e`. -/
def startLines (e : Nat) : List Char :=
  "STARTCHAR ".toList ++ fmtU e ++ "\n".toList ++ ("ENCODING ".toList ++ fmtU e ++ "\n".toList)

/-- The line `DWIDTH d 0`. -/
def dwidthLine (d : Int) : List Char := "DWIDTH ".toList ++ fmtD d ++ " 0\n".toList

/-- The line `BBX w h xoff yoff`. -/
def bbxLine (w h xoff yoff : Int) : List Char :=
  "BBX ".toList ++ fmtD w ++ " ".toList ++ fmtD h ++ " ".toList ++ fmtD xoff ++ " ".toList
    ++ fmtD yoff ++ "\n".toList

/-- The bitmap section: `BITMAP`, one text row per pixel row, `ENDCHAR`. -/
def bitmapSection (g : Globals) : List Char :=
  "BITMAP\n".toList ++ (List.range (glyphHeight g)).flatMap (rowText g) ++ "ENDCHAR\n".toList

/-- The record of the current glyph after its two leading lines. -/
def charBody (g : Globals) : List Char :=
  dwidthLine (dwidthOf g)
    ++ bbxLine (glyphWidth g) (glyphHeight g) (toInt8 (byteAt g.tablo 2))
        (-(g.sizeOver + (glyphHeight g : Int) + toInt8 (byteAt g.tablo 3)))
    ++ bitmapSection g

/-- The record of the current glyph under encoding `e`. -/
def charText (g : Globals) (e : Nat) : List Char := startLines e ++ charBody g

/-- The header text for a title buffer and a glyph count, up to the `CHARS` line. -/
def headerLead (title : List Byte) : List Char :=
  "STARTFONT 2.1\n".toList ++ "FONT".toList ++ (" \"".toList ++ fmtS title ++ "\"\n".toList)
    ++ "SIZE 16 75 75\n".toList ++ "FONTBOUNDINGBOX 16 16 0 0\n".toList
    ++ "STARTPROPERTIES 3\n".toList ++ "COPYRIGHT \"http://bmf.php5.cz\"".toList
    ++ "FONT_ASCENT 0\n".toList ++ "FONT_DESCENT 0\n".toList ++ "ENDPROPERTIES\n".toList

/-- The line `CHARS n`. -/
def charsLine (n : Nat) : List Char := "CHARS ".toList ++ fmtD (n : Int) ++ "\n".toList

/-- One glyph record of the input: encoding byte, five metric bytes, bitmap. -/
structure Glyph where
  encoding : Byte
  metrics : List Byte
  bitmap : List Byte

/-- The bytes of a glyph record in file order. -/
def glyphBytes (gl : Glyph) : List Byte := gl.encoding :: (gl.metrics ++ gl.bitmap)

/-- Width and height of a glyph record: its first two metric bytes, unsigned. -/
def Glyph.width (gl : Glyph) : Nat := byteAt gl.metrics 0

def Glyph.height (gl : Glyph) : Nat := byteAt gl.metrics 1

/-- Decoding of one glyph record: one encoding byte, a 5-byte metrics block,
then `width*height` bitmap bytes; `none` on a short read. -/
def decodeGlyph (file : List Byte) : Option (Glyph × List Byte) :=
  match file with
  | [] => none
  | e :: rest =>
    if rest.length < 5 then none
    else if (rest.drop 5).length < byteAt (rest.take 5) 0 * byteAt (rest.take 5) 1 then none
    else
      some (⟨e, rest.take 5,
              (rest.drop 5).take (byteAt (rest.take 5) 0 * byteAt (rest.take 5) 1)⟩,
            (rest.drop 5).drop (byteAt (rest.take 5) 0 * byteAt (rest.take 5) 1))

/-- Decoding of `n` glyph records in sequence: the records decoded before
the first short read, whether all `n` were decoded, and the unread input
(nothing after a short read). -/
def decodeGlyphs : Nat → List Byte → List Glyph × Bool × List Byte
  | 0, file => ([], true, file)
  | n + 1, file =>
    match decodeGlyph file with
    | none => ([], false, [])
    | some (gl, rest) =>
      ((gl :: (decodeGlyphs n rest).1), (decodeGlyphs n rest).2.1, (decodeGlyphs n rest).2.2)

/-- The globals with a decoded glyph record as the current glyph. -/
def withGlyph (g : Globals) (gl : Glyph) : Globals :=
  { g with whichChar := gl.encoding.val, tablo := gl.metrics, bitmap := gl.bitmap }

/-- The text record of a decoded glyph in the context `g`. -/
def glyphText (g : Globals) (gl : Glyph) : List Char :=
  charText (withGlyph g gl) gl.encoding.val

/-- The globals after the reads of one turn of the glyph loop for record `gl`. -/
def loaded (g : Globals) (gl : Glyph) : Globals :=
  { g with whichChar := gl.encoding.val, tablo := gl.metrics, bitmap := store gl.bitmap g.bitmap }

/-- The globals without the per-glyph scratch variables and the output. -/
def ctxOf (g : Globals) : Globals :=
  { g with whichChar := 0, tablo := [], bitmap := [], out := [] }

/-- The globals without the scratch variables, the output and the estimator. -/
def ctxNoAcc (g : Globals) : Globals :=
  { ctxOf g with totalGlyphSize := 0, cntGlyphSize := 0, averageGlyphSize := 0 }

/-- An ASCII letter `A`..`Z` or `a`..`z`. -/
def isLetter (c : Nat) : Bool := (65 ≤ c && c ≤ 90) || (97 ≤ c && c ≤ 122)

/-- The glyph records whose encoding is an ASCII letter. -/
def letterGlyphs (gs : List Glyph) : List Glyph := gs.filter (fun gl => isLetter gl.encoding.val)

/-- Number `N` of letter glyphs and sum `S` of their widths. -/
def letterCount (gs : List Glyph) : Nat := (letterGlyphs gs).length

def letterWidthSum (gs : List Glyph) : Nat := ((letterGlyphs gs).map Glyph.width).sum

/-! ## Concrete inputs used by the witnesses -/

/-- A glyph state: 3 pixels wide, 2 rows, bitmap `1 0 1 / 0 9 0`, character 66. -/
def exGlyph3x2 : Globals :=
  { initGlobals 0 0 with
    whichChar := 66, tablo := [3, 2, 1, 246, 5], bitmap := [1, 0, 1, 0, 9, 0], sizeOver := 10,
    addSpace := 1 }

/-- A 10 pixel wide, 1 row glyph state. -/
def exGlyph10x1 : Globals :=
  { initGlobals 0 0 with
    whichChar := 65, tablo := [10, 1, 0, 0, 5], bitmap := [1, 0, 1, 0, 1, 0, 1, 0, 1, 1],
    sizeOver := 10, addSpace := 1 }

/-- An empty glyph (a space) with the given flags and running average. -/
def exSpace (optP optX avg : Int) : Globals :=
  { initGlobals optP optX with
    whichChar := 32, tablo := [0, 0, 0, 0, 5], addSpace := 1, averageGlyphSize := avg }

/-- A 17-byte header: magic, version 1.1, lineHeight 12, sizeOver 10,
sizeUnder 2, addSpace 1, one palette colour. -/
def exHeader17 : List Byte :=
  [0xE1, 0xE6, 0xD5, 0x1A, 0x11, 12, 10, 2, 1, 0, 0, 0, 0, 0, 0, 0, 1]

/-- A complete font file: title `hi`, three glyphs `A` (10x1), space (0x0), `B` (3x2). -/
def exFile : List Byte :=
  exHeader17 ++ [1, 2, 3] ++ [2, 104, 105] ++ [3, 0]
    ++ [65, 10, 1, 0, 0, 5, 1, 0, 1, 0, 1, 0, 1, 0, 1, 1]
    ++ [32, 0, 0, 0, 0, 4]
    ++ [66, 3, 2, 1, 246, 5, 1, 0, 1, 0, 9, 0]

/-- The same file cut off right after the title, before the glyph count. -/
def exTruncated : List Byte := exHeader17 ++ [1, 2, 3] ++ [2, 104, 105]

/-- The globals and the unread input after the header part on `exFile`. -/
def exAfterHeader : Globals × List Byte :=
  match readHeader exFile (initGlobals 0 0) with
  | .ok r => r
  | .error r => r

/-- The stream of two glyph records: `A` of width 10, then `B` of width 8, one row each. -/
def exGlyphsAB : List Byte :=
  [65, 10, 1, 0, 0, 0, 1, 1, 1, 1, 1, 1, 1, 1, 1, 1, 66, 8, 1, 0, 0, 0, 1, 1, 1, 1, 1, 1, 1, 1]

/-- The two passes of a conversion from the globals `g`: analysis, then emission. -/
def conversion (g : Globals) (content : List Byte) : Globals :=
  (processBMF content 0 (processBMF content 1 g).2.1).2.1

/-- Value of a lowercase hexadecimal digit character. -/
def hexVal (c : Char) : Nat :=
  if 48 ≤ c.toNat ∧ c.toNat ≤ 57 then c.toNat - 48 else c.toNat - 87

/-- The sixteen lowercase hexadecimal digits. -/
def hexDigits : List Char := "0123456789abcdef".toList

/-- The bounds every reachable state of the width estimator satisfies. -/
def AccInv (g : Globals) : Prop :=
  0 ≤ g.cntGlyphSize ∧ 0 ≤ g.totalGlyphSize ∧ g.totalGlyphSize ≤ 255 * g.cntGlyphSize ∧
    0 ≤ g.averageGlyphSize ∧ g.averageGlyphSize ≤ 170

instance (g : Globals) : Decidable (AccInv g) := by
  unfold AccInv
  infer_instance

/-- The example file with an empty title (title length byte 0) and one glyph. -/
def exEmptyTitle : List Byte :=
  exHeader17 ++ [1, 2, 3] ++ [0] ++ [1, 0] ++ [32, 0, 0, 0, 0, 4]

/-- The example file with 200 at offset 16 (`numColors`) and 600 palette bytes. -/
def exManyColors : List Byte :=
  [0xE1, 0xE6, 0xD5, 0x1A, 0x11, 12, 10, 2, 1, 0, 0, 0, 0, 0, 0, 0, 200]
    ++ List.replicate 600 1 ++ [2, 104, 105] ++ [0, 0]

/-- The example file with the palette bytes `64 2 3`. -/
def exPalette64 : List Byte :=
  exHeader17 ++ [64, 2, 3] ++ [2, 104, 105] ++ [1, 0] ++ [32, 0, 0, 0, 0, 4]

/-- The globals reduced to what a glyph record is computed from, besides the glyph. -/
def coreOf (g : Globals) : Globals :=
  { initGlobals g.optionForceProportional g.optionAddExtraSpace with
    addSpace := g.addSpace, sizeOver := g.sizeOver, averageGlyphSize := g.averageGlyphSize }

/-- The glyph records a pass over `content` decodes before it returns. -/
def decodedGlyphs (content : List Byte) : List Glyph :=
  match readHeader content (initGlobals 0 0) with
  | .ok (g', file) => (decodeGlyphs g'.asciiChars file).1
  | .error _ => []

/-- The text an emission pass over `content` appends under the two options
and the average `avg`. -/
def emissionText (optP optX avg : Int) (content : List Byte) : List Char :=
  (processBMF content 0 { initGlobals optP optX with averageGlyphSize := avg }).2.1.out

/-- The example file with other palette bytes. -/
def exFileRecolored : List Byte :=
  exHeader17 ++ [63, 0, 40] ++ [2, 104, 105] ++ [3, 0]
    ++ [65, 10, 1, 0, 0, 5, 1, 0, 1, 0, 1, 0, 1, 0, 1, 1]
    ++ [32, 0, 0, 0, 0, 4]
    ++ [66, 3, 2, 1, 246, 5, 1, 0, 1, 0, 9, 0]

/-- The example file with 0 at offset 16 (`numColors`), no palette bytes,
the title `hi` and no glyphs. -/
def exNoColors : List Byte :=
  [0xE1, 0xE6, 0xD5, 0x1A, 0x11, 12, 10, 2, 1, 0, 0, 0, 0, 0, 0, 0, 0]
    ++ [2, 104, 105] ++ [0, 0]

/-- The three glyph records of `exFile`. -/
def exGlyphs : List Glyph :=
  [⟨65, [10, 1, 0, 0, 5], [1, 0, 1, 0, 1, 0, 1, 0, 1, 1]⟩, ⟨32, [0, 0, 0, 0, 4], []⟩,
    ⟨66, [3, 2, 1, 246, 5], [1, 0, 1, 0, 9, 0]⟩]

/-! ## Basic facts -/

theorem byteAt_lt (buf : List Byte) (k : Nat) : byteAt buf k < 256 := (buf.getD k 0).isLt

theorem fprintf_nil (g : Globals) : fprintf g [] = g := by
  cases g; simp [fprintf]

theorem fprintf_fprintf (g : Globals) (s t : List Char) :
    fprintf (fprintf g s) t = fprintf g (s ++ t) := by
  simp [fprintf]

theorem get_pixel_le_one (g : Globals) (x y : Int) : get_pixel g x y ≤ 1 := by
  unfold get_pixel
  simp only []
  split_ifs <;> omega

theorem get_pixel_fprintf (g : Globals) (s : List Char) (x y : Int) :
    get_pixel (fprintf g s) x y = get_pixel g x y := rfl

theorem get_pixel_byte_fprintf (g : Globals) (s : List Char) (x y : Int) :
    get_pixel_byte (fprintf g s) x y = get_pixel_byte g x y := rfl

theorem rowBytes_fprintf (g : Globals) (s : List Char) (y : Nat) :
    rowBytes (fprintf g s) y = rowBytes g y := rfl

theorem rowText_fprintf (g : Globals) (s : List Char) :
    rowText (fprintf g s) = rowText g := rfl

/-- The pixel at an in-range position is decided by its bitmap entry alone. -/
theorem get_pixel_eq (g : Globals) (x y : Nat) :
    get_pixel g (x : Int) (y : Int) =
      if x < glyphWidth g ∧ y < glyphHeight g then
        (if byteAt g.bitmap (x + y * glyphWidth g) = 0 then 0 else 1)
      else 0 := by
  unfold get_pixel glyphWidth glyphHeight
  simp only []
  have hidx : ((x : Int) + (y : Int) * ((byteAt g.tablo 0 : Nat) : Int)).toNat
      = x + y * byteAt g.tablo 0 := by
    have : ((x : Int) + (y : Int) * ((byteAt g.tablo 0 : Nat) : Int))
        = ((x + y * byteAt g.tablo 0 : Nat) : Int) := by push_cast; ring
    rw [this, Int.toNat_natCast]
  rw [hidx]
  split_ifs <;> first | rfl | omega

/-- One turn of the packing loop: shift left in 8 bits, then or in a 0/1 pixel. -/
theorem shl_or_bit (b p : Nat) (hp : p ≤ 1) :
    ((b <<< 1) % 256) ||| p = (2 * b) % 256 + p := by
  have h1 : (b <<< 1) % 256 = 2 ^ 1 * (b % 128) := by
    rw [Nat.shiftLeft_eq]; omega
  have h2 : (2 * b) % 256 = 2 ^ 1 * (b % 128) := by omega
  rw [h1, h2]
  exact (Nat.mul_add_lt_is_or (by omega) (b % 128)).symm

/-- The packed byte as a sum: the pixel at `x + i` has weight `2^(7-i)`. -/
theorem get_pixel_byte_eq (g : Globals) (x y : Int) :
    get_pixel_byte g x y =
      128 * get_pixel g x y + 64 * get_pixel g (x + 1) y + 32 * get_pixel g (x + 2) y
      + 16 * get_pixel g (x + 3) y + 8 * get_pixel g (x + 4) y + 4 * get_pixel g (x + 5) y
      + 2 * get_pixel g (x + 6) y + get_pixel g (x + 7) y := by
  have h0 := get_pixel_le_one g x y
  have h1 := get_pixel_le_one g (x + 1) y
  have h2 := get_pixel_le_one g (x + 2) y
  have h3 := get_pixel_le_one g (x + 3) y
  have h4 := get_pixel_le_one g (x + 4) y
  have h5 := get_pixel_le_one g (x + 5) y
  have h6 := get_pixel_le_one g (x + 6) y
  have h7 := get_pixel_le_one g (x + 7) y
  have hr : List.range 8 = [0, 1, 2, 3, 4, 5, 6, 7] := by decide
  unfold get_pixel_byte
  rw [hr]
  simp only [List.foldl, Nat.cast_zero, add_zero, Nat.cast_one, Nat.cast_ofNat]
  rw [shl_or_bit _ _ h0, shl_or_bit _ _ h1, shl_or_bit _ _ h2, shl_or_bit _ _ h3,
    shl_or_bit _ _ h4, shl_or_bit _ _ h5, shl_or_bit _ _ h6, shl_or_bit _ _ h7]
  omega

theorem get_pixel_byte_lt (g : Globals) (x y : Int) : get_pixel_byte g x y < 256 := by
  have h0 := get_pixel_le_one g x y
  have h1 := get_pixel_le_one g (x + 1) y
  have h2 := get_pixel_le_one g (x + 2) y
  have h3 := get_pixel_le_one g (x + 3) y
  have h4 := get_pixel_le_one g (x + 4) y
  have h5 := get_pixel_le_one g (x + 5) y
  have h6 := get_pixel_le_one g (x + 6) y
  have h7 := get_pixel_le_one g (x + 7) y
  rw [get_pixel_byte_eq]
  omega

/-- Bit `7 - i` of the packed byte at `x` is the pixel at `x + i`. -/
theorem get_pixel_byte_bit (g : Globals) (x y : Int) (i : Nat) (hi : i < 8) :
    get_pixel_byte g x y / 2 ^ (7 - i) % 2 = get_pixel g (x + (i : Int)) y := by
  have h0 := get_pixel_le_one g x y
  have h1 := get_pixel_le_one g (x + 1) y
  have h2 := get_pixel_le_one g (x + 2) y
  have h3 := get_pixel_le_one g (x + 3) y
  have h4 := get_pixel_le_one g (x + 4) y
  have h5 := get_pixel_le_one g (x + 5) y
  have h6 := get_pixel_le_one g (x + 6) y
  have h7 := get_pixel_le_one g (x + 7) y
  rw [get_pixel_byte_eq]
  interval_cases i <;> simp only [Nat.cast_zero, add_zero, Nat.cast_one, Nat.cast_ofNat] <;>
    norm_num <;> omega


theorem write_4bit_eq (g : Globals) (x : Nat) : write_4bit g x = fprintf g [hexDigit x] := by
  unfold write_4bit hexDigit
  split_ifs <;> rfl

theorem write_byte_eq (g : Globals) (v : Nat) : write_byte g v = fprintf g (hexByte v) := by
  unfold write_byte hexByte
  simp only [write_4bit_eq, fprintf_fprintf, List.singleton_append]

/-- The row loop started at `x = 8k` writes the packed bytes `k, k+1, ...` of the row. -/
theorem rowLoop_eq (y : Nat) (fuel : Nat) : ∀ (k : Nat) (g : Globals),
    (glyphWidth g + 7) / 8 - k ≤ fuel →
    rowLoop (glyphWidth g) y fuel (8 * k) g =
      fprintf g (((List.range' k ((glyphWidth g + 7) / 8 - k)).map
        (fun j => get_pixel_byte g ((8 * j : Nat) : Int) (y : Int))).flatMap hexByte) := by
  induction fuel with
  | zero =>
    intro k g h
    have h0 : (glyphWidth g + 7) / 8 - k = 0 := by omega
    simp [rowLoop, h0, fprintf_nil]
  | succ fuel ih =>
    intro k g h
    unfold rowLoop
    by_cases hk : 8 * k < glyphWidth g
    · rw [if_pos hk, write_byte_eq]
      have hw : glyphWidth (fprintf g (hexByte (get_pixel_byte g ((8 * k : Nat) : Int) (y : Int))))
          = glyphWidth g := rfl
      have h8 : 8 * k + 8 = 8 * (k + 1) := by ring
      have step := ih (k + 1) (fprintf g (hexByte (get_pixel_byte g ((8 * k : Nat) : Int) (y : Int))))
        (by rw [hw]; omega)
      rw [hw] at step
      rw [h8, step, fprintf_fprintf]
      have hn : (glyphWidth g + 7) / 8 - k = ((glyphWidth g + 7) / 8 - (k + 1)) + 1 := by omega
      rw [hn, List.range'_succ]
      simp only [List.map_cons, List.flatMap_cons]
      rfl
    · rw [if_neg hk]
      have h0 : (glyphWidth g + 7) / 8 - k = 0 := by omega
      simp [h0, fprintf_nil]

/-- The inner loop of `write_bdf_bitmap` with the following newline writes `rowText`. -/
theorem row_eq (g : Globals) (y : Nat) :
    fprintf (rowLoop (glyphWidth g) y (glyphWidth g) 0 g) "\n".toList = fprintf g (rowText g y) := by
  have h := rowLoop_eq y (glyphWidth g) 0 g (by omega)
  rw [Nat.mul_zero] at h
  rw [h, fprintf_fprintf, Nat.sub_zero, ← List.range_eq_range']
  rfl

/-- The loop over the rows writes the row texts one after the other. -/
theorem rows_eq (w : Nat) (l : List Nat) : ∀ g : Globals, glyphWidth g = w →
    l.foldl (fun g y => fprintf (rowLoop w y w 0 g) "\n".toList) g
      = fprintf g (l.flatMap (rowText g)) := by
  induction l with
  | nil => intro g _; simp [fprintf_nil]
  | cons y l ih =>
    intro g hw
    have hrow := row_eq g y
    rw [hw] at hrow
    rw [List.foldl_cons, hrow, ih (fprintf g (rowText g y)) hw, fprintf_fprintf, rowText_fprintf,
      List.flatMap_cons]

theorem glyphWidth_fprintf (g : Globals) (s : List Char) :
    glyphWidth (fprintf g s) = glyphWidth g := rfl

theorem sizeOver_fprintf (g : Globals) (s : List Char) :
    (fprintf g s).sizeOver = g.sizeOver := rfl

/-- Function `write_bdf_bitmap` appends the record `charText` and changes nothing else. -/
theorem write_bdf_bitmap_eq (g : Globals) (e : Nat) :
    write_bdf_bitmap g e = fprintf g (charText g e) := by
  unfold write_bdf_bitmap
  simp only []
  rw [rows_eq (byteAt g.tablo 0) (List.range (byteAt g.tablo 1))]
  swap
  · simp only [glyphWidth_fprintf]; rfl
  simp only [fprintf_fprintf, sizeOver_fprintf, rowText_fprintf]
  congr 1
  unfold charText charBody startLines dwidthLine bbxLine bitmapSection dwidthOf glyphWidth glyphHeight
  simp only [List.append_assoc]
  split_ifs <;> simp only [add_zero]


theorem hexDigit_mem (x : Nat) (hx : x < 16) : hexDigit x ∈ "0123456789abcdef".toList := by
  interval_cases x <;> decide

theorem hexByte_length (v : Nat) : (hexByte v).length = 2 := rfl

theorem hexByte_mem (v : Nat) (hv : v < 256) (c : Char) (hc : c ∈ hexByte v) :
    c ∈ "0123456789abcdef".toList := by
  have h1 : v >>> 4 < 16 := by rw [Nat.shiftRight_eq_div_pow]; omega
  have h2 : v &&& 15 < 16 := by
    have := Nat.and_pow_two_sub_one_eq_mod v 4
    norm_num at this
    omega
  unfold hexByte at hc
  simp only [List.mem_cons, List.mem_singleton, List.not_mem_nil, or_false] at hc
  rcases hc with rfl | rfl
  · exact hexDigit_mem _ h1
  · exact hexDigit_mem _ h2

theorem rowBytes_length (g : Globals) (y : Nat) :
    (rowBytes g y).length = (glyphWidth g + 7) / 8 := by
  simp [rowBytes]

theorem rowBytes_get (g : Globals) (y j : Nat) (hj : j < (glyphWidth g + 7) / 8) :
    (rowBytes g y)[j]? = some (get_pixel_byte g ((8 * j : Nat) : Int) (y : Int)) := by
  simp [rowBytes, List.getElem?_map, List.getElem?_range hj]

theorem flatMap_hexByte_length (l : List Nat) : (l.flatMap hexByte).length = 2 * l.length := by
  induction l with
  | nil => rfl
  | cons v l ih => simp [List.flatMap_cons, ih, hexByte_length]; omega

theorem glyphWidth_lt (g : Globals) : glyphWidth g < 256 := byteAt_lt _ _

theorem glyphHeight_lt (g : Globals) : glyphHeight g < 256 := byteAt_lt _ _

/-- Bit `7 - i` of packed byte `j` of row `y`, read off the glyph's bitmap entries. -/
theorem packed_bit (g : Globals) (y j i : Nat) (hy : y < glyphHeight g) (hi : i < 8) :
    (get_pixel_byte g ((8 * j : Nat) : Int) (y : Int) / 2 ^ (7 - i) % 2 = 1 ↔
      8 * j + i < glyphWidth g ∧ byteAt g.bitmap (8 * j + i + y * glyphWidth g) ≠ 0) := by
  rw [get_pixel_byte_bit g _ _ i hi]
  have hc : ((8 * j : Nat) : Int) + (i : Int) = ((8 * j + i : Nat) : Int) := by push_cast; ring
  rw [hc, get_pixel_eq]
  by_cases hx : 8 * j + i < glyphWidth g
  · by_cases hz : byteAt g.bitmap (8 * j + i + y * glyphWidth g) = 0
    · simp [hx, hy, hz]
    · simp [hx, hy, hz]
  · simp [hx]

/-- C1. Bitmap packing: the text of every row written by `write_bdf_bitmap` is
the hex of the packed bytes `rowBytes`, whose `j`-th entry is
`get_pixel_byte` at `x = 8j`; for a glyph of width `w` and height `h` (both
below 256) with bitmap `b` of length `w*h`, bit `7-i` of that byte is 1 exactly
when `8j+i < w` and `b[(8j+i) + y*w]` is nonzero. -/
theorem bitmap_packing (g : Globals) (b rest : List Byte) (e y j i : Nat)
    (hb : b.length = glyphWidth g * glyphHeight g) (hg : g.bitmap = b ++ rest)
    (hy : y < glyphHeight g) (hj : j < (glyphWidth g + 7) / 8) (hi : i < 8) :
    glyphWidth g < 256 ∧ glyphHeight g < 256 ∧
    (write_bdf_bitmap g e).out =
      g.out ++ (startLines e ++ (dwidthLine (dwidthOf g)
        ++ bbxLine (glyphWidth g) (glyphHeight g) (toInt8 (byteAt g.tablo 2))
            (-(g.sizeOver + (glyphHeight g : Int) + toInt8 (byteAt g.tablo 3)))
        ++ ("BITMAP\n".toList
          ++ (List.range (glyphHeight g)).flatMap
              (fun y => (rowBytes g y).flatMap hexByte ++ "\n".toList)
          ++ "ENDCHAR\n".toList))) ∧
    ∃ v, (rowBytes g y)[j]? = some v ∧ v = get_pixel_byte g ((8 * j : Nat) : Int) (y : Int) ∧
      (v / 2 ^ (7 - i) % 2 = 1 ↔
        8 * j + i < glyphWidth g ∧ (b.getD (8 * j + i + y * glyphWidth g) 0).val ≠ 0) := by
  refine ⟨glyphWidth_lt g, glyphHeight_lt g, ?_, _, rowBytes_get g y j hj, rfl, ?_⟩
  · rw [write_bdf_bitmap_eq]; rfl
  · rw [packed_bit g y j i hy hi]
    constructor
    · rintro ⟨hx, hz⟩
      refine ⟨hx, ?_⟩
      have hlt : 8 * j + i + y * glyphWidth g < b.length := by
        rw [hb]
        calc 8 * j + i + y * glyphWidth g < glyphWidth g + y * glyphWidth g := by omega
          _ = (y + 1) * glyphWidth g := by ring
          _ ≤ glyphHeight g * glyphWidth g := Nat.mul_le_mul_right _ hy
          _ = glyphWidth g * glyphHeight g := Nat.mul_comm _ _
      rw [byteAt, hg, List.getD_append _ _ _ _ hlt] at hz
      exact hz
    · rintro ⟨hx, hz⟩
      refine ⟨hx, ?_⟩
      have hlt : 8 * j + i + y * glyphWidth g < b.length := by
        rw [hb]
        calc 8 * j + i + y * glyphWidth g < glyphWidth g + y * glyphWidth g := by omega
          _ = (y + 1) * glyphWidth g := by ring
          _ ≤ glyphHeight g * glyphWidth g := Nat.mul_le_mul_right _ hy
          _ = glyphWidth g * glyphHeight g := Nat.mul_comm _ _
      rw [byteAt, hg, List.getD_append _ _ _ _ hlt]
      exact hz

/-- Witness of C1: row 1, byte 0, bit 6 of the 3x2 glyph `1 0 1 / 0 9 0`. -/
theorem bitmap_packing_witness :
    ∃ v, (rowBytes exGlyph3x2 1)[0]? = some v ∧
      v = get_pixel_byte exGlyph3x2 ((8 * 0 : Nat) : Int) ((1 : Nat) : Int) ∧
      (v / 2 ^ (7 - 1) % 2 = 1 ↔
        8 * 0 + 1 < glyphWidth exGlyph3x2 ∧
          (([1, 0, 1, 0, 9, 0] : List Byte).getD (8 * 0 + 1 + 1 * glyphWidth exGlyph3x2) 0).val ≠ 0) :=
  (bitmap_packing exGlyph3x2 [1, 0, 1, 0, 9, 0] [] 66 1 0 1 (by decide) (by rfl) (by decide)
    (by decide) (by decide)).2.2.2


/-! ## The glyph loop -/

theorem write_bdf_header_eq (g : Globals) :
    write_bdf_header g = fprintf g (headerLead g.title ++ charsLine g.asciiChars) := by
  unfold write_bdf_header
  simp only [fprintf_fprintf]
  congr 1

/-- Pixels are read from the first `width*height` bitmap entries only. -/
theorem get_pixel_congr (g : Globals) (b1 b2 : List Byte)
    (h : ∀ i, i < glyphWidth g * glyphHeight g → byteAt b1 i = byteAt b2 i) (x y : Int) :
    get_pixel { g with bitmap := b1 } x y = get_pixel { g with bitmap := b2 } x y := by
  unfold get_pixel
  simp only []
  by_cases h1 : x < 0
  · simp [h1]
  by_cases h2 : x ≥ (byteAt g.tablo 0 : Int)
  · simp [h1, h2]
  by_cases h3 : y < 0
  · simp [h1, h2, h3]
  by_cases h4 : y ≥ (byteAt g.tablo 1 : Int)
  · simp [h1, h2, h3, h4]
  rw [if_neg h1, if_neg h2, if_neg h3, if_neg h4, if_neg h1, if_neg h2, if_neg h3, if_neg h4]
  lift x to ℕ using (by omega)
  lift y to ℕ using (by omega)
  have hidx : ((x : Int) + (y : Int) * ((byteAt g.tablo 0 : Nat) : Int)).toNat
      = x + y * byteAt g.tablo 0 := by
    have : ((x : Int) + (y : Int) * ((byteAt g.tablo 0 : Nat) : Int))
        = ((x + y * byteAt g.tablo 0 : Nat) : Int) := by push_cast; ring
    rw [this, Int.toNat_natCast]
  rw [hidx]
  have hx : x < byteAt g.tablo 0 := by omega
  have hy : y < byteAt g.tablo 1 := by omega
  have hlt : x + y * byteAt g.tablo 0 < glyphWidth g * glyphHeight g := by
    unfold glyphWidth glyphHeight
    calc x + y * byteAt g.tablo 0 < byteAt g.tablo 0 + y * byteAt g.tablo 0 := by omega
      _ = (y + 1) * byteAt g.tablo 0 := by ring
      _ ≤ byteAt g.tablo 1 * byteAt g.tablo 0 := Nat.mul_le_mul_right _ hy
      _ = byteAt g.tablo 0 * byteAt g.tablo 1 := Nat.mul_comm _ _
  rw [h _ hlt]

/-- The record of a glyph depends on the bitmap buffer through its first
`width*height` entries only. -/
theorem charText_congr (g : Globals) (b1 b2 : List Byte) (e : Nat)
    (h : ∀ i, i < glyphWidth g * glyphHeight g → byteAt b1 i = byteAt b2 i) :
    charText { g with bitmap := b1 } e = charText { g with bitmap := b2 } e := by
  have hp := get_pixel_congr g b1 b2 h
  have hrow : rowText { g with bitmap := b1 } = rowText { g with bitmap := b2 } := by
    funext y
    simp only [rowText, rowBytes, get_pixel_byte, hp]
    rfl
  simp only [charText, charBody, bitmapSection, hrow]
  rfl

theorem glyphText_ctx (g g' : Globals) (h : ctxOf g = ctxOf g') : glyphText g = glyphText g' := by
  funext gl
  have h1 : glyphText g gl = glyphText (ctxOf g) gl := rfl
  have h2 : glyphText g' gl = glyphText (ctxOf g') gl := rfl
  rw [h1, h2, h]


theorem toUInt8_val (b : Byte) : toUInt8 (b.val : Int) = b.val := by
  unfold toUInt8
  have := b.isLt
  omega

theorem store_nil (buf : List Byte) : store [] buf = buf := by simp [store]

/-- What a decoded record looks like in the input. -/
theorem decodeGlyph_some (file rest : List Byte) (gl : Glyph)
    (h : decodeGlyph file = some (gl, rest)) :
    file = glyphBytes gl ++ rest ∧ gl.metrics.length = 5 ∧
      gl.bitmap.length = gl.width * gl.height := by
  cases file with
  | nil => simp [decodeGlyph] at h
  | cons e tl =>
    unfold decodeGlyph at h
    simp only [] at h
    split_ifs at h with h1 h2
    simp only [Option.some.injEq, Prod.mk.injEq] at h
    obtain ⟨hgl, hrest⟩ := h
    subst hgl
    subst hrest
    refine ⟨?_, ?_, ?_⟩
    · simp only [glyphBytes, List.cons_append, List.append_assoc, List.take_append_drop]
    · simp only [List.length_take]; omega
    · simp only [Glyph.width, Glyph.height, List.length_take]
      simp only [not_lt] at h2
      omega

/-- One turn of the glyph loop, in either pass: it fails exactly when the next
record cannot be decoded, and otherwise acts on the loaded record. -/
theorem glyphLoop_succ (a : Int) (n : Nat) (file : List Byte) (g : Globals) :
    (decodeGlyph file = none →
      ∃ g', glyphLoop a (n + 1) file g = (0, g', []) ∧ ctxOf g' = ctxOf g ∧ g'.out = g.out) ∧
    (∀ gl rest, decodeGlyph file = some (gl, rest) →
      glyphLoop a (n + 1) file g = glyphLoop a n rest (glyphAction a (loaded g gl))) := by
  cases file with
  | nil =>
    refine ⟨fun _ => ⟨{ g with whichChar := toUInt8 (-1) }, ?_, rfl, rfl⟩, ?_⟩
    · simp [glyphLoop, fgetc, fread]
    · intro gl rest h
      simp [decodeGlyph] at h
  | cons e tl =>
    have he : toUInt8 ((e.val : Nat) : Int) = e.val := toUInt8_val e
    by_cases h1 : tl.length < 5
    · refine ⟨fun _ => ⟨{ g with whichChar := toUInt8 (e.val : Int) }, ?_, rfl, rfl⟩, ?_⟩
      · have : ¬ (5 ≤ tl.length) := by omega
        simp [glyphLoop, fgetc, fread, this]
      · intro gl rest h
        simp only [decodeGlyph, h1, if_true, reduceCtorEq] at h
    · have h5 : 5 ≤ tl.length := by omega
      have hw := byteAt_lt (tl.take 5) 0
      have hh := byteAt_lt (tl.take 5) 1
      have hprod : byteAt (tl.take 5) 0 * byteAt (tl.take 5) 1 < 65536 := by
        calc byteAt (tl.take 5) 0 * byteAt (tl.take 5) 1 ≤ 255 * 255 :=
              Nat.mul_le_mul (by omega) (by omega)
          _ < 65536 := by norm_num
      have hmod : byteAt (tl.take 5) 0 * byteAt (tl.take 5) 1 % 65536
          = byteAt (tl.take 5) 0 * byteAt (tl.take 5) 1 := Nat.mod_eq_of_lt hprod
      by_cases h2 : (tl.drop 5).length < byteAt (tl.take 5) 0 * byteAt (tl.take 5) 1
      · refine ⟨fun _ => ⟨{ g with whichChar := toUInt8 (e.val : Int), tablo := tl.take 5 },
          ?_, rfl, rfl⟩, ?_⟩
        · have hpos : 0 < byteAt (tl.take 5) 0 * byteAt (tl.take 5) 1 := by omega
          have hne : byteAt (tl.take 5) 0 * byteAt (tl.take 5) 1 ≠ 0 := by omega
          have hshort : ¬ (byteAt (tl.take 5) 0 * byteAt (tl.take 5) 1 ≤ (tl.drop 5).length) := by
            omega
          simp only [glyphLoop, fgetc, fread, h5, if_true, hmod, hpos, hne, hshort, if_false,
            gt_iff_lt, OfNat.ofNat_ne_zero]
        · intro gl rest h
          simp only [decodeGlyph, h1, h2, if_true, if_false, reduceCtorEq] at h
      · refine ⟨fun h => ?_, ?_⟩
        · simp only [decodeGlyph, h1, h2, if_true, if_false, reduceCtorEq] at h
        · intro gl rest h
          simp only [decodeGlyph, h1, h2, if_false, Option.some.injEq, Prod.mk.injEq] at h
          obtain ⟨hgl, hrest⟩ := h
          subst hgl
          subst hrest
          have hle : byteAt (tl.take 5) 0 * byteAt (tl.take 5) 1 ≤ (tl.drop 5).length := by omega
          by_cases hz : byteAt (tl.take 5) 0 * byteAt (tl.take 5) 1 = 0
          · simp only [glyphLoop, fgetc, fread, h5, if_true, hmod, hz, if_false,
              gt_iff_lt, OfNat.ofNat_ne_zero, lt_self_iff_false, he, loaded, List.take_zero,
              List.drop_zero, store_nil]
          · have hpos : 0 < byteAt (tl.take 5) 0 * byteAt (tl.take 5) 1 := by omega
            simp only [glyphLoop, fgetc, fread, h5, if_true, hmod, hz, if_false,
              gt_iff_lt, OfNat.ofNat_ne_zero, hpos, hle, he, loaded]


theorem cDiv_of_ne (a b : Int) (hb : b ≠ 0) : cDiv a b = some (Int.tdiv a b) := by
  unfold cDiv
  rw [if_neg hb]

theorem estimatorUpdate_of_ne (g : Globals) (w : Nat) (h : ¬ (g.cntGlyphSize + 1 = 0)) :
    estimatorUpdate g w
      = some { g with totalGlyphSize := g.totalGlyphSize + (w : Int),
                      cntGlyphSize := g.cntGlyphSize + 1,
                      averageGlyphSize :=
                        Int.tdiv ((g.totalGlyphSize + (w : Int)) * 2) ((g.cntGlyphSize + 1) * 3) } := by
  unfold estimatorUpdate
  simp only []
  rw [cDiv_of_ne _ _ (by omega)]

theorem estimatorUpdate_of_eq (g : Globals) (w : Nat) (h : g.cntGlyphSize + 1 = 0) :
    estimatorUpdate g w = none := by
  unfold estimatorUpdate cDiv
  simp only [h, zero_mul, if_true]

/-- Function `glyphAction` with the estimator written out. -/
theorem glyphAction_unfold (a : Int) (g : Globals) :
    glyphAction a g =
      if a ≠ 0 then
        if (65 ≤ g.whichChar ∧ g.whichChar ≤ 90) ∨ (97 ≤ g.whichChar ∧ g.whichChar ≤ 122) then
          (if g.cntGlyphSize + 1 = 0 then g
           else { g with totalGlyphSize := g.totalGlyphSize + (byteAt g.tablo 0 : Int),
                         cntGlyphSize := g.cntGlyphSize + 1,
                         averageGlyphSize :=
                           Int.tdiv ((g.totalGlyphSize + (byteAt g.tablo 0 : Int)) * 2)
                             ((g.cntGlyphSize + 1) * 3) })
        else g
      else write_bdf_bitmap g g.whichChar := by
  unfold glyphAction
  simp only []
  by_cases ha : a ≠ 0
  · rw [if_pos ha, if_pos ha]
    by_cases hl : (65 ≤ g.whichChar ∧ g.whichChar ≤ 90) ∨ (97 ≤ g.whichChar ∧ g.whichChar ≤ 122)
    · rw [if_pos hl, if_pos hl]
      by_cases hz : g.cntGlyphSize + 1 = 0
      · rw [if_pos hz, estimatorUpdate_of_eq g _ hz]
      · rw [if_neg hz, estimatorUpdate_of_ne g _ hz]
    · rw [if_neg hl, if_neg hl]
  · rw [if_neg ha, if_neg ha]

theorem glyphAction_emit (g : Globals) :
    glyphAction 0 g = fprintf g (charText g g.whichChar) := by
  unfold glyphAction
  simp [write_bdf_bitmap_eq]

theorem byteAt_store (bm old : List Byte) (i : Nat) (hi : i < bm.length) :
    byteAt (store bm old) i = byteAt bm i := by
  unfold byteAt store
  rw [List.getD_append _ _ _ _ hi]

/-- The record written for a loaded glyph is the record of the decoded glyph:
the bytes left in the bitmap buffer by earlier glyphs play no part. -/
theorem charText_loaded (g : Globals) (gl : Glyph)
    (hb : gl.bitmap.length = gl.width * gl.height) :
    charText (loaded g gl) gl.encoding.val = glyphText g gl := by
  have h := charText_congr { g with whichChar := gl.encoding.val, tablo := gl.metrics }
    (store gl.bitmap g.bitmap) gl.bitmap gl.encoding.val
    (by
      intro i hi
      apply byteAt_store
      rw [hb]
      exact hi)
  exact h

/-- The glyph loop of the emission pass: it succeeds exactly when all records
decode, and in any case has written the records of the glyphs decoded. -/
theorem glyphLoop_emit (n : Nat) : ∀ (file : List Byte) (g : Globals),
    (glyphLoop 0 n file g).1 = (if (decodeGlyphs n file).2.1 then 1 else 0) ∧
    (glyphLoop 0 n file g).2.2 = (decodeGlyphs n file).2.2 ∧
    (glyphLoop 0 n file g).2.1.out = g.out ++ (decodeGlyphs n file).1.flatMap (glyphText g) ∧
    ctxOf (glyphLoop 0 n file g).2.1 = ctxOf g := by
  induction n with
  | zero => intro file g; simp [glyphLoop, decodeGlyphs]
  | succ n ih =>
    intro file g
    rcases hd : decodeGlyph file with _ | ⟨gl, rest⟩
    · obtain ⟨g', hg', hctx, hout⟩ := (glyphLoop_succ 0 n file g).1 hd
      rw [hg']
      simp [decodeGlyphs, hd, hctx, hout]
    · rw [(glyphLoop_succ 0 n file g).2 gl rest hd, glyphAction_emit]
      obtain ⟨h1, h2, h3, h4⟩ := ih rest (fprintf (loaded g gl) (charText (loaded g gl) (loaded g gl).whichChar))
      have hb := (decodeGlyph_some file rest gl hd).2.2
      have hc : ctxOf (fprintf (loaded g gl) (charText (loaded g gl) (loaded g gl).whichChar))
          = ctxOf g := rfl
      have ht : charText (loaded g gl) (loaded g gl).whichChar = glyphText g gl :=
        charText_loaded g gl hb
      refine ⟨?_, ?_, ?_, ?_⟩
      · rw [h1]; simp [decodeGlyphs, hd]
      · rw [h2]; simp [decodeGlyphs, hd]
      · rw [h3, glyphText_ctx _ _ hc, ht]
        simp [decodeGlyphs, hd, fprintf, loaded]
      · rw [h4, hc]

theorem letterCount_cons (gl : Glyph) (gs : List Glyph) :
    letterCount (gl :: gs) = (if isLetter gl.encoding.val then 1 else 0) + letterCount gs := by
  unfold letterCount letterGlyphs
  by_cases h : isLetter gl.encoding.val <;> simp [List.filter_cons, h]
  omega

theorem letterWidthSum_cons (gl : Glyph) (gs : List Glyph) :
    letterWidthSum (gl :: gs)
      = (if isLetter gl.encoding.val then gl.width else 0) + letterWidthSum gs := by
  unfold letterWidthSum letterGlyphs
  by_cases h : isLetter gl.encoding.val <;> simp [List.filter_cons, h]

theorem letterWidthSum_of_count_zero (gs : List Glyph) (h : letterCount gs = 0) :
    letterWidthSum gs = 0 := by
  unfold letterCount at h
  unfold letterWidthSum
  rw [List.length_eq_zero] at h
  rw [h]
  rfl

theorem isLetter_iff (c : Nat) :
    isLetter c = true ↔ (65 ≤ c ∧ c ≤ 90) ∨ (97 ≤ c ∧ c ≤ 122) := by
  simp [isLetter]

/-- The estimator step on a loaded glyph, in the analysis pass. -/
theorem glyphAction_analyze (a : Int) (ha : a ≠ 0) (g : Globals) (gl : Glyph)
    (ht : 0 ≤ g.totalGlyphSize) (hc : 0 ≤ g.cntGlyphSize) :
    (glyphAction a (loaded g gl)).out = g.out ∧
    ctxNoAcc (glyphAction a (loaded g gl)) = ctxNoAcc g ∧
    (glyphAction a (loaded g gl)).totalGlyphSize
      = g.totalGlyphSize + (if isLetter gl.encoding.val then (gl.width : Int) else 0) ∧
    (glyphAction a (loaded g gl)).cntGlyphSize
      = g.cntGlyphSize + (if isLetter gl.encoding.val then 1 else 0) ∧
    (glyphAction a (loaded g gl)).averageGlyphSize
      = (if isLetter gl.encoding.val then
          ((g.totalGlyphSize + (gl.width : Int)) * 2) / ((g.cntGlyphSize + 1) * 3)
        else g.averageGlyphSize) := by
  rw [glyphAction_unfold]
  simp only [ha, ne_eq, not_false_eq_true, if_true]
  by_cases hl : isLetter gl.encoding.val = true
  · have hl' := (isLetter_iff _).1 hl
    have hw : (loaded g gl).whichChar = gl.encoding.val := rfl
    have hne : ¬ ((loaded g gl).cntGlyphSize + 1 = 0) := by
      show ¬ (g.cntGlyphSize + 1 = 0)
      omega
    rw [hw, if_pos hl', if_neg hne]
    simp only [hl, if_true]
    refine ⟨rfl, rfl, rfl, rfl, ?_⟩
    exact Int.tdiv_eq_ediv (by positivity) (by positivity)
  · have hl' : ¬ ((65 ≤ gl.encoding.val ∧ gl.encoding.val ≤ 90) ∨
        (97 ≤ gl.encoding.val ∧ gl.encoding.val ≤ 122)) := fun h => hl ((isLetter_iff _).2 h)
    have hw : (loaded g gl).whichChar = gl.encoding.val := rfl
    rw [hw, if_neg hl']
    simp only [hl, if_false]
    simp only [Bool.false_eq_true, if_false, add_zero]
    exact ⟨rfl, rfl, rfl, rfl, rfl⟩


/-- The glyph loop of the analysis pass: it writes nothing, succeeds exactly
when all records decode, and has then added the letter glyphs decoded to the
estimator. -/
theorem glyphLoop_analyze (a : Int) (ha : a ≠ 0) (n : Nat) : ∀ (file : List Byte) (g : Globals),
    0 ≤ g.totalGlyphSize → 0 ≤ g.cntGlyphSize →
    (glyphLoop a n file g).1 = (if (decodeGlyphs n file).2.1 then 1 else 0) ∧
    (glyphLoop a n file g).2.2 = (decodeGlyphs n file).2.2 ∧
    (glyphLoop a n file g).2.1.out = g.out ∧
    ctxNoAcc (glyphLoop a n file g).2.1 = ctxNoAcc g ∧
    (glyphLoop a n file g).2.1.totalGlyphSize
      = g.totalGlyphSize + (letterWidthSum (decodeGlyphs n file).1 : Int) ∧
    (glyphLoop a n file g).2.1.cntGlyphSize
      = g.cntGlyphSize + (letterCount (decodeGlyphs n file).1 : Int) ∧
    (glyphLoop a n file g).2.1.averageGlyphSize
      = (if letterCount (decodeGlyphs n file).1 = 0 then g.averageGlyphSize
         else ((g.totalGlyphSize + (letterWidthSum (decodeGlyphs n file).1 : Int)) * 2)
            / ((g.cntGlyphSize + (letterCount (decodeGlyphs n file).1 : Int)) * 3)) := by
  induction n with
  | zero =>
    intro file g _ _
    simp [glyphLoop, decodeGlyphs, letterCount, letterWidthSum, letterGlyphs]
  | succ n ih =>
    intro file g ht hc
    rcases hd : decodeGlyph file with _ | ⟨gl, rest⟩
    · obtain ⟨g', hg', hctx, hout⟩ := (glyphLoop_succ a n file g).1 hd
      rw [hg']
      have e1 : g'.totalGlyphSize = g.totalGlyphSize := congrArg (fun s => s.totalGlyphSize) hctx
      have e2 : g'.cntGlyphSize = g.cntGlyphSize := congrArg (fun s => s.cntGlyphSize) hctx
      have e3 : g'.averageGlyphSize = g.averageGlyphSize := congrArg (fun s => s.averageGlyphSize) hctx
      have e4 : ctxNoAcc g' = ctxNoAcc g := by unfold ctxNoAcc; rw [hctx]
      simp [decodeGlyphs, hd, hout, e1, e2, e3, e4, letterCount, letterWidthSum, letterGlyphs]
    · rw [(glyphLoop_succ a n file g).2 gl rest hd]
      obtain ⟨s1, s2, s3, s4, s5⟩ := glyphAction_analyze a ha g gl ht hc
      have ht1 : 0 ≤ (glyphAction a (loaded g gl)).totalGlyphSize := by
        rw [s3]; split_ifs <;> omega
      have hc1 : 0 ≤ (glyphAction a (loaded g gl)).cntGlyphSize := by
        rw [s4]; split_ifs <;> omega
      obtain ⟨h1, h2, h3, h4, h5, h6, h7⟩ := ih rest (glyphAction a (loaded g gl)) ht1 hc1
      have hgs : (decodeGlyphs (n + 1) file).1 = gl :: (decodeGlyphs n rest).1 := by
        simp [decodeGlyphs, hd]
      refine ⟨?_, ?_, ?_, ?_, ?_, ?_, ?_⟩
      · rw [h1]; simp [decodeGlyphs, hd]
      · rw [h2]; simp [decodeGlyphs, hd]
      · rw [h3, s1]
      · rw [h4, s2]
      · rw [h5, s3, hgs, letterWidthSum_cons]
        split_ifs <;> push_cast <;> ring
      · rw [h6, s4, hgs, letterCount_cons]
        split_ifs <;> push_cast <;> ring
      · rw [h7, s3, s4, s5, hgs, letterCount_cons, letterWidthSum_cons]
        by_cases hl : isLetter gl.encoding.val = true
        · simp only [hl, if_true]
          by_cases hz : letterCount (decodeGlyphs n rest).1 = 0
          · have hs := letterWidthSum_of_count_zero _ hz
            simp [hz, hs]
          · have hne : ¬ (1 + letterCount (decodeGlyphs n rest).1 = 0) := by omega
            rw [if_neg hz, if_neg hne]
            push_cast
            ring_nf
        · simp only [hl, if_false]
          simp only [Bool.false_eq_true, if_false, zero_add, add_zero]

theorem fread_some (size : Nat) (file d f : List Byte) (h : fread size file = (some d, f)) :
    size ≠ 0 ∧ size ≤ file.length ∧ d = file.take size ∧ f = file.drop size := by
  unfold fread at h
  split_ifs at h with h1 h2
  · simp at h
  · simp only [Prod.mk.injEq, Option.some.injEq] at h
    exact ⟨h1, h2, h.1.symm, h.2.symm⟩
  · simp at h

/-- Function `strncmp` against the magic bytes is 0 exactly on the magic bytes. -/
theorem strncmp_magic (b0 b1 b2 b3 : Nat) (rest : List Nat) :
    strncmp (b0 :: b1 :: b2 :: b3 :: rest) magic 4 = 0 ↔
      b0 = 0xE1 ∧ b1 = 0xE6 ∧ b2 = 0xD5 ∧ b3 = 0x1A := by
  unfold magic
  simp only [strncmp, List.headD_cons, List.tail_cons]
  constructor
  · intro h
    split_ifs at h <;> omega
  · rintro ⟨rfl, rfl, rfl, rfl⟩
    simp

/-- The header part leaves the output, the options, the estimator and the
glyph scratch variables alone, on every exit. -/
theorem readHeader_frame (content : List Byte) (g : Globals) (r : Globals × List Byte)
    (h : readHeader content g = .error r ∨ readHeader content g = .ok r) :
    r.1.out = g.out ∧ r.1.optionForceProportional = g.optionForceProportional ∧
    r.1.optionAddExtraSpace = g.optionAddExtraSpace ∧
    r.1.totalGlyphSize = g.totalGlyphSize ∧ r.1.cntGlyphSize = g.cntGlyphSize ∧
    r.1.averageGlyphSize = g.averageGlyphSize := by
  unfold readHeader at h
  rcases h17 : fread 17 content with ⟨_ | buffer, f1⟩
  · simp only [h17] at h
    rcases h with h | h
    · cases h; exact ⟨rfl, rfl, rfl, rfl, rfl, rfl⟩
    · cases h
  · simp only [h17] at h
    split_ifs at h with hm
    · rcases h with h | h
      · cases h; exact ⟨rfl, rfl, rfl, rfl, rfl, rfl⟩
      · cases h
    · rcases hp : fread (toSizeT (toInt8 (byteAt buffer 16) * 3)) f1 with ⟨_ | pal, f2⟩
      · simp only [hp] at h
        rcases h with h | h
        · cases h; exact ⟨rfl, rfl, rfl, rfl, rfl, rfl⟩
        · cases h
      · simp only [hp] at h
        rcases ht : fread (toUInt8 (fgetc f2).1) (fgetc f2).2 with ⟨_ | t, f3⟩
        · simp only [ht] at h
          rcases h with h | h
          · cases h; exact ⟨rfl, rfl, rfl, rfl, rfl, rfl⟩
          · cases h
        · simp only [ht] at h
          rcases h with h | h
          · cases h
          · cases h; exact ⟨rfl, rfl, rfl, rfl, rfl, rfl⟩


theorem strncmp_magic_take (l : List Nat) :
    strncmp l magic 4 = 0 ↔ l.take 4 = [0xE1, 0xE6, 0xD5, 0x1A] := by
  rcases l with _ | ⟨b0, _ | ⟨b1, _ | ⟨b2, _ | ⟨b3, rest⟩⟩⟩⟩
  · simp [strncmp, magic]
  · simp only [strncmp, magic, List.headD_cons, List.tail_cons, List.headD_nil]
    constructor
    · intro h; split_ifs at h <;> omega
    · intro h; simp at h
  · simp only [strncmp, magic, List.headD_cons, List.tail_cons, List.headD_nil]
    constructor
    · intro h; split_ifs at h <;> omega
    · intro h; simp at h
  · simp only [strncmp, magic, List.headD_cons, List.tail_cons, List.headD_nil]
    constructor
    · intro h; split_ifs at h <;> omega
    · intro h; simp at h
  · rw [strncmp_magic]
    simp

theorem toInt8_eq_17 (b : Nat) (hb : b < 256) : toInt8 b = 0x11 ↔ b = 0x11 := by
  unfold toInt8
  split_ifs <;> omega

theorem toInt8_eq_18 (b : Nat) (hb : b < 256) : toInt8 b = 0x12 ↔ b = 0x12 := by
  unfold toInt8
  split_ifs <;> omega

theorem byteAt_take (l : List Byte) (n k : Nat) (hk : k < n) :
    byteAt (l.take n) k = byteAt l k := by
  unfold byteAt
  simp only [List.getD_eq_getElem?_getD, List.getElem?_take, hk, if_true]

/-- What the input looks like when the header part succeeds. -/
theorem readHeader_ok (content : List Byte) (g g' : Globals) (file : List Byte)
    (h : readHeader content g = .ok (g', file)) :
    ∃ (pal title : List Byte) (L : Byte) (tail : List Byte),
      content = content.take 17 ++ pal ++ L :: title ++ tail ∧
      17 ≤ content.length ∧
      (content.take 4).map Fin.val = [0xE1, 0xE6, 0xD5, 0x1A] ∧
      (byteAt content 4 = 0x11 ∨ byteAt content 4 = 0x12) ∧
      g'.numColors = toInt8 (byteAt content 16) ∧
      pal.length = toSizeT (g'.numColors * 3) ∧ pal.length ≠ 0 ∧
      title.length = L.val ∧ L.val ≠ 0 ∧
      g'.titleLength = L.val ∧
      g'.title = title ++ (0 : Byte) :: g.title.drop (L.val + 1) ∧
      g'.sizeOver = toInt8 (byteAt content 6) ∧ g'.addSpace = toInt8 (byteAt content 8) ∧
      g'.asciiChars = (readWord tail).1 ∧ file = (readWord tail).2 := by
  unfold readHeader at h
  rcases h17 : fread 17 content with ⟨_ | buffer, f1⟩
  · simp only [h17] at h
    cases h
  · simp only [h17] at h
    obtain ⟨-, hlen, hbuf, hf1⟩ := fread_some _ _ _ _ h17
    split_ifs at h with hm
    rcases hp : fread (toSizeT (toInt8 (byteAt buffer 16) * 3)) f1 with ⟨_ | pal, f2⟩
    · simp only [hp] at h
      cases h
    · simp only [hp] at h
      obtain ⟨hp0, hplen, hpal, hf2⟩ := fread_some _ _ _ _ hp
      rcases ht : fread (toUInt8 (fgetc f2).1) (fgetc f2).2 with ⟨_ | t, f3⟩
      · simp only [ht] at h
        cases h
      · simp only [ht] at h
        obtain ⟨ht0, htlen, htt, hf3⟩ := fread_some _ _ _ _ ht
        cases f2 with
        | nil =>
          have hnil : (fgetc ([] : List Byte)).2.length = 0 := rfl
          rw [hnil] at htlen
          omega
        | cons L f2' =>
          simp only [fgetc, toUInt8_val] at ht0 htlen htt hf3 h
          simp only [Except.ok.injEq, Prod.mk.injEq] at h
          obtain ⟨hg', hfile⟩ := h
          subst hg'
          subst hfile
          push_neg at hm
          obtain ⟨hmag, hver⟩ := hm
          have hb4 : byteAt buffer 4 = byteAt content 4 := by rw [hbuf]; exact byteAt_take _ _ _ (by omega)
          have hb6 : byteAt buffer 6 = byteAt content 6 := by rw [hbuf]; exact byteAt_take _ _ _ (by omega)
          have hb8 : byteAt buffer 8 = byteAt content 8 := by rw [hbuf]; exact byteAt_take _ _ _ (by omega)
          have hb16 : byteAt buffer 16 = byteAt content 16 := by rw [hbuf]; exact byteAt_take _ _ _ (by omega)
          refine ⟨pal, t, L, f3, ?_, hlen, ?_, ?_, ?_, ?_, ?_, ?_, ht0, rfl, rfl, ?_, ?_, rfl, rfl⟩
          · have e1 : content = content.take 17 ++ f1 := by rw [hf1, List.take_append_drop]
            have e2 : f1 = pal ++ (L :: f2') := by rw [hpal, hf2, List.take_append_drop]
            have e3 : f2' = t ++ f3 := by rw [htt, hf3, List.take_append_drop]
            conv_lhs => rw [e1, e2, e3]
            simp only [List.append_assoc, List.cons_append]
          · have := (strncmp_magic_take _).1 hmag
            rw [hbuf, ← List.map_take, List.take_take] at this
            simpa using this
          · rw [← hb4]
            have hlt := byteAt_lt buffer 4
            by_cases h11 : toInt8 (byteAt buffer 4) = 0x11
            · exact Or.inl ((toInt8_eq_17 _ hlt).1 h11)
            · exact Or.inr ((toInt8_eq_18 _ hlt).1 (hver h11))
          · simp only [hb16]
          · simp only [hpal, List.length_take]
            omega
          · simp only [hpal, List.length_take]
            omega
          · simp only [htt, List.length_take]
            omega
          · simp only [hb6]
          · simp only [hb8]


/-! ## Claims -/

theorem rowBytes_mem_lt (g : Globals) (y v : Nat) (hv : v ∈ rowBytes g y) : v < 256 := by
  unfold rowBytes at hv
  rw [List.mem_map] at hv
  obtain ⟨j, -, rfl⟩ := hv
  exact get_pixel_byte_lt _ _ _

/-- C2. Row shape: the text written by `write_bdf_bitmap` has, between the
line `BITMAP` and the line `ENDCHAR`, exactly `h` rows; every row is the hex
text of `ceil(w/8)` bytes, that is `2*ceil(w/8)` hex characters, and one
newline; for `w = 8k` that is `k` bytes, for `w = 8k+r` with `1 ≤ r ≤ 7` it is
`k+1` bytes, and in the last byte every bit for a position `x ≥ w` is 0. -/
theorem row_shape (g : Globals) (e : Nat) :
    (write_bdf_bitmap g e).out =
      g.out ++ (startLines e ++ (dwidthLine (dwidthOf g)
        ++ bbxLine (glyphWidth g) (glyphHeight g) (toInt8 (byteAt g.tablo 2))
            (-(g.sizeOver + (glyphHeight g : Int) + toInt8 (byteAt g.tablo 3)))
        ++ ("BITMAP\n".toList ++ ((List.range (glyphHeight g)).map (rowText g)).flatten
          ++ "ENDCHAR\n".toList))) ∧
    ((List.range (glyphHeight g)).map (rowText g)).length = glyphHeight g ∧
    (∀ y, rowText g y = (rowBytes g y).flatMap hexByte ++ "\n".toList ∧
      (rowBytes g y).length = (glyphWidth g + 7) / 8 ∧
      ((rowBytes g y).flatMap hexByte).length = 2 * ((glyphWidth g + 7) / 8) ∧
      ∀ c, c ∈ (rowBytes g y).flatMap hexByte → c ∈ "0123456789abcdef".toList) ∧
    (∀ k, glyphWidth g = 8 * k → (glyphWidth g + 7) / 8 = k) ∧
    (∀ k r, 1 ≤ r → r ≤ 7 → glyphWidth g = 8 * k + r →
      (glyphWidth g + 7) / 8 = k + 1 ∧
      ∀ y i, r ≤ i → i < 8 →
        ∃ v, (rowBytes g y)[k]? = some v ∧ v / 2 ^ (7 - i) % 2 = 0) := by
  refine ⟨?_, by simp, ?_, ?_, ?_⟩
  · rw [write_bdf_bitmap_eq]; rfl
  · intro y
    refine ⟨rfl, rowBytes_length g y, ?_, ?_⟩
    · rw [flatMap_hexByte_length, rowBytes_length]
    · intro c hc
      rw [List.mem_flatMap] at hc
      obtain ⟨v, hv, hcv⟩ := hc
      exact hexByte_mem v (rowBytes_mem_lt g y v hv) c hcv
  · intro k hk; omega
  · intro k r h1 h7 hk
    refine ⟨by omega, ?_⟩
    intro y i hri hi
    refine ⟨_, rowBytes_get g y k (by omega), ?_⟩
    rw [get_pixel_byte_bit g _ _ i hi]
    have hc : ((8 * k : Nat) : Int) + (i : Int) = ((8 * k + i : Nat) : Int) := by push_cast; ring
    rw [hc, get_pixel_eq]
    have hx : ¬ (8 * k + i < glyphWidth g) := by omega
    simp [hx]

/-- Witness of C2: the 10 pixel wide glyph (`10 = 8*1 + 2`) has 2 bytes per row
and bit 5 (position `x = 10`) of the last byte is 0. -/
theorem row_shape_witness :
    (glyphWidth exGlyph10x1 + 7) / 8 = 1 + 1 ∧
      ∀ y i, 2 ≤ i → i < 8 →
        ∃ v, (rowBytes exGlyph10x1 y)[1]? = some v ∧ v / 2 ^ (7 - i) % 2 = 0 :=
  (row_shape exGlyph10x1 65).2.2.2.2 1 2 (by decide) (by decide) (by decide)

theorem toInt8_range (b : Nat) (hb : b < 256) : -128 ≤ toInt8 b ∧ toInt8 b ≤ 127 := by
  unfold toInt8
  split_ifs <;> omega

/-- C3. DWIDTH: the third line written by `write_bdf_bitmap` is `DWIDTH d 0`
where `d` is `shiftX + addSpace` with the proportional flag off, and with it
on `averageGlyphSize + relX + addSpace` for width 0 and
`width + relX + addSpace` otherwise, plus 1 when the extra-space flag is on;
`shiftX` and `relX` are metric bytes 4 and 2 read as signed, `addSpace` is
header byte 8 read as signed, the width is metric byte 0 unsigned. The three
examples of the specification give 6, 10 and 11. -/
theorem dwidth_computation :
    (∀ (g : Globals) (e : Nat),
      (write_bdf_bitmap g e).out =
        g.out ++ (startLines e ++ (dwidthLine
          ((if g.optionForceProportional = 0 then toInt8 (byteAt g.tablo 4) + g.addSpace
            else if byteAt g.tablo 0 = 0 then
              g.averageGlyphSize + toInt8 (byteAt g.tablo 2) + g.addSpace
            else (byteAt g.tablo 0 : Int) + toInt8 (byteAt g.tablo 2) + g.addSpace)
           + (if g.optionAddExtraSpace = 0 then 0 else 1))
          ++ bbxLine (glyphWidth g) (glyphHeight g) (toInt8 (byteAt g.tablo 2))
              (-(g.sizeOver + (glyphHeight g : Int) + toInt8 (byteAt g.tablo 3)))
          ++ bitmapSection g)) ∧
      byteAt g.tablo 0 < 256 ∧
      (-128 ≤ toInt8 (byteAt g.tablo 2) ∧ toInt8 (byteAt g.tablo 2) ≤ 127) ∧
      (-128 ≤ toInt8 (byteAt g.tablo 4) ∧ toInt8 (byteAt g.tablo 4) ≤ 127)) ∧
    (∀ (content : List Byte) (g g' : Globals) (file : List Byte),
      readHeader content g = .ok (g', file) →
        g'.addSpace = toInt8 (byteAt content 8) ∧ -128 ≤ g'.addSpace ∧ g'.addSpace ≤ 127) ∧
    (write_bdf_bitmap (exSpace 0 0 0) 32).out
      = "STARTCHAR 32\nENCODING 32\nDWIDTH 6 0\nBBX 0 0 0 0\nBITMAP\nENDCHAR\n".toList ∧
    (write_bdf_bitmap (exSpace 1 0 9) 32).out
      = "STARTCHAR 32\nENCODING 32\nDWIDTH 10 0\nBBX 0 0 0 0\nBITMAP\nENDCHAR\n".toList ∧
    (write_bdf_bitmap (exSpace 1 1 9) 32).out
      = "STARTCHAR 32\nENCODING 32\nDWIDTH 11 0\nBBX 0 0 0 0\nBITMAP\nENDCHAR\n".toList := by
  refine ⟨?_, ?_, by decide, by decide, by decide⟩
  · intro g e
    refine ⟨?_, byteAt_lt _ _, toInt8_range _ (byteAt_lt _ _), toInt8_range _ (byteAt_lt _ _)⟩
    rw [write_bdf_bitmap_eq]
    simp only [fprintf, charText, charBody, dwidthOf, glyphWidth]
    congr 4
    split_ifs <;> simp_all
  · intro content g g' file h
    obtain ⟨pal, title, L, tail, -, -, -, -, -, -, -, -, -, -, -, -, ha, -, -⟩ :=
      readHeader_ok content g g' file h
    have := toInt8_range (byteAt content 8) (byteAt_lt _ _)
    rw [ha]
    exact ⟨rfl, this.1, this.2⟩


/-- Witness of C3: on the example file the header part succeeds and `addSpace`
is header byte 8 read as signed. -/
theorem dwidth_computation_witness :
    exAfterHeader.1.addSpace = toInt8 (byteAt exFile 8) ∧ -128 ≤ exAfterHeader.1.addSpace ∧
      exAfterHeader.1.addSpace ≤ 127 :=
  dwidth_computation.2.1 exFile (initGlobals 0 0) exAfterHeader.1 exAfterHeader.2 (by rfl)

/-! ## The whole function `processBMF` -/

theorem processBMF_error (content : List Byte) (a : Int) (g : Globals) (r : Globals × List Byte)
    (h : readHeader content g = .error r) : processBMF content a g = (0, r.1, r.2) := by
  unfold processBMF
  rw [h]

theorem processBMF_emit (content : List Byte) (g g' : Globals) (file : List Byte)
    (h : readHeader content g = .ok (g', file)) :
    processBMF content 0 g
      = glyphLoop 0 g'.asciiChars file
          (fprintf g' (headerLead g'.title ++ charsLine g'.asciiChars)) := by
  unfold processBMF
  rw [h]
  simp only [if_true, write_bdf_header_eq]
  rfl

theorem processBMF_analyze (content : List Byte) (a : Int) (ha : a ≠ 0) (g g' : Globals)
    (file : List Byte) (h : readHeader content g = .ok (g', file)) :
    processBMF content a g = glyphLoop a g'.asciiChars file g' := by
  unfold processBMF
  rw [h]
  simp only [ha, if_false]

/-- The text of the emission pass when the header part succeeds: the header,
then the records of the glyphs decoded, whether or not all of them decode. -/
theorem processBMF_emit_out (content : List Byte) (g g' : Globals) (file : List Byte)
    (h : readHeader content g = .ok (g', file)) :
    (processBMF content 0 g).2.1.out
      = g.out ++ (headerLead g'.title ++ charsLine g'.asciiChars
          ++ (decodeGlyphs g'.asciiChars file).1.flatMap (glyphText g')) := by
  rw [processBMF_emit content g g' file h]
  obtain ⟨-, -, h3, -⟩ := glyphLoop_emit g'.asciiChars file
    (fprintf g' (headerLead g'.title ++ charsLine g'.asciiChars))
  rw [h3]
  have hc : ctxOf (fprintf g' (headerLead g'.title ++ charsLine g'.asciiChars)) = ctxOf g' := rfl
  rw [glyphText_ctx _ _ hc]
  have ho : g'.out = g.out := (readHeader_frame content g (g', file) (Or.inr h)).1
  simp only [fprintf, ho, List.append_assoc]

theorem bitmapSection_empty (g : Globals) (hh : glyphHeight g = 0) :
    bitmapSection g = "BITMAP\nENDCHAR\n".toList := by
  unfold bitmapSection
  rw [hh]
  rfl

/-- C4. BBX: the fourth line written by `write_bdf_bitmap` is `BBX w h relX yoff`
with `w`, `h` metric bytes 0 and 1 unsigned (below 256), `relX` metric byte 2
signed and `yoff = -(sizeOver + h + relY)`, `relY` metric byte 3 signed;
`sizeOver` is header byte 6 read as signed, and the records of the emission
pass are written with it; a glyph of width 0 and height 0 has a bitmap
section of no rows and the line `BBX 0 0 relX -(sizeOver+relY)`. -/
theorem bbx_line :
    (∀ (g : Globals) (e : Nat),
      (write_bdf_bitmap g e).out =
        g.out ++ (startLines e ++ (dwidthLine (dwidthOf g)
          ++ bbxLine (byteAt g.tablo 0 : Int) (byteAt g.tablo 1 : Int) (toInt8 (byteAt g.tablo 2))
              (-(g.sizeOver + (byteAt g.tablo 1 : Int) + toInt8 (byteAt g.tablo 3)))
          ++ bitmapSection g)) ∧
      byteAt g.tablo 0 < 256 ∧ byteAt g.tablo 1 < 256 ∧
      (-128 ≤ toInt8 (byteAt g.tablo 2) ∧ toInt8 (byteAt g.tablo 2) ≤ 127) ∧
      (-128 ≤ toInt8 (byteAt g.tablo 3) ∧ toInt8 (byteAt g.tablo 3) ≤ 127)) ∧
    (∀ (content : List Byte) (g g' : Globals) (file : List Byte),
      readHeader content g = .ok (g', file) →
        g'.sizeOver = toInt8 (byteAt content 6) ∧
        (processBMF content 0 g).2.1.out
          = g.out ++ (headerLead g'.title ++ charsLine g'.asciiChars
              ++ (decodeGlyphs g'.asciiChars file).1.flatMap
                  (fun gl => charText (withGlyph g' gl) gl.encoding.val))) ∧
    (∀ (g : Globals) (e : Nat), byteAt g.tablo 0 = 0 → byteAt g.tablo 1 = 0 →
      bitmapSection g = "BITMAP\nENDCHAR\n".toList ∧
      (write_bdf_bitmap g e).out =
        g.out ++ (startLines e ++ (dwidthLine (dwidthOf g)
          ++ bbxLine 0 0 (toInt8 (byteAt g.tablo 2)) (-(g.sizeOver + toInt8 (byteAt g.tablo 3)))
          ++ "BITMAP\nENDCHAR\n".toList))) := by
  refine ⟨?_, ?_, ?_⟩
  · intro g e
    refine ⟨?_, byteAt_lt _ _, byteAt_lt _ _, toInt8_range _ (byteAt_lt _ _),
      toInt8_range _ (byteAt_lt _ _)⟩
    rw [write_bdf_bitmap_eq]
    rfl
  · intro content g g' file h
    obtain ⟨pal, title, L, tail, -, -, -, -, -, -, -, -, -, -, -, hs, -, -, -⟩ :=
      readHeader_ok content g g' file h
    exact ⟨hs, processBMF_emit_out content g g' file h⟩
  · intro g e hw hh
    have hsec := bitmapSection_empty g hh
    refine ⟨hsec, ?_⟩
    rw [write_bdf_bitmap_eq]
    simp only [fprintf, charText, charBody, glyphWidth, glyphHeight, hw, hh, hsec]
    simp

/-- Witness of C4: the empty glyph (a space) has no bitmap rows and `BBX 0 0 0 0`. -/
theorem bbx_line_witness :
    bitmapSection (exSpace 0 0 0) = "BITMAP\nENDCHAR\n".toList ∧
      (write_bdf_bitmap (exSpace 0 0 0) 32).out =
        (exSpace 0 0 0).out ++ (startLines 32 ++ (dwidthLine (dwidthOf (exSpace 0 0 0))
          ++ bbxLine 0 0 (toInt8 (byteAt (exSpace 0 0 0).tablo 2))
              (-((exSpace 0 0 0).sizeOver + toInt8 (byteAt (exSpace 0 0 0).tablo 3)))
          ++ "BITMAP\nENDCHAR\n".toList)) :=
  bbx_line.2.2 (exSpace 0 0 0) 32 (by decide) (by decide)

/-- C5. Width estimator: in the analysis pass every decoded glyph is handed to
the estimator step; on an encoding byte in `A`..`Z` (65..90) or `a`..`z`
(97..122) the step adds the unsigned width to `totalGlyphSize`, adds 1 to
`cntGlyphSize` and sets `averageGlyphSize` to the floor of
`totalGlyphSize*2 / (cntGlyphSize*3)` on the new values; on any other byte
the three are unchanged. From zero, `A` of width 10 then `B` of width 8 give
6 and then 6. -/
theorem estimator_step :
    (∀ (a : Int) (n : Nat) (file rest : List Byte) (g : Globals) (gl : Glyph),
      decodeGlyph file = some (gl, rest) →
        glyphLoop a (n + 1) file g = glyphLoop a n rest (glyphAction a (loaded g gl)) ∧
        (loaded g gl).whichChar = gl.encoding.val ∧
        byteAt (loaded g gl).tablo 0 = gl.width) ∧
    (∀ (a : Int) (g : Globals), a ≠ 0 → 0 ≤ g.totalGlyphSize → 0 ≤ g.cntGlyphSize →
      ((65 ≤ g.whichChar ∧ g.whichChar ≤ 90) ∨ (97 ≤ g.whichChar ∧ g.whichChar ≤ 122)) →
        (glyphAction a g).totalGlyphSize = g.totalGlyphSize + (byteAt g.tablo 0 : Int) ∧
        (glyphAction a g).cntGlyphSize = g.cntGlyphSize + 1 ∧
        (glyphAction a g).averageGlyphSize
          = Int.fdiv ((glyphAction a g).totalGlyphSize * 2) ((glyphAction a g).cntGlyphSize * 3)) ∧
    (∀ (a : Int) (g : Globals), a ≠ 0 →
      ¬ ((65 ≤ g.whichChar ∧ g.whichChar ≤ 90) ∨ (97 ≤ g.whichChar ∧ g.whichChar ≤ 122)) →
        (glyphAction a g).totalGlyphSize = g.totalGlyphSize ∧
        (glyphAction a g).cntGlyphSize = g.cntGlyphSize ∧
        (glyphAction a g).averageGlyphSize = g.averageGlyphSize) ∧
    ((glyphLoop 1 1 exGlyphsAB (initGlobals 0 0)).2.1.totalGlyphSize = 10 ∧
      (glyphLoop 1 1 exGlyphsAB (initGlobals 0 0)).2.1.cntGlyphSize = 1 ∧
      (glyphLoop 1 1 exGlyphsAB (initGlobals 0 0)).2.1.averageGlyphSize = 6) ∧
    ((glyphLoop 1 2 exGlyphsAB (initGlobals 0 0)).2.1.totalGlyphSize = 18 ∧
      (glyphLoop 1 2 exGlyphsAB (initGlobals 0 0)).2.1.cntGlyphSize = 2 ∧
      (glyphLoop 1 2 exGlyphsAB (initGlobals 0 0)).2.1.averageGlyphSize = 6) := by
  refine ⟨?_, ?_, ?_, by decide, by decide⟩
  · intro a n file rest g gl h
    exact ⟨(glyphLoop_succ a n file g).2 gl rest h, rfl, rfl⟩
  · intro a g ha ht hc hl
    have hne : ¬ (g.cntGlyphSize + 1 = 0) := by omega
    rw [glyphAction_unfold]
    simp only [ha, ne_eq, not_false_eq_true, if_true, hl, hne, if_false]
    refine ⟨trivial, trivial, ?_⟩
    have h1 : 0 ≤ (g.totalGlyphSize + (byteAt g.tablo 0 : Int)) * 2 := by positivity
    have h2 : 0 ≤ (g.cntGlyphSize + 1) * 3 := by positivity
    rw [Int.tdiv_eq_ediv h1 h2, Int.fdiv_eq_ediv _ h2]
  · intro a g ha hl
    rw [glyphAction_unfold]
    simp only [ha, ne_eq, not_false_eq_true, if_true, hl, if_false]
    exact ⟨trivial, trivial, trivial⟩

/-- Witness of C5: the step on `A` (65) with width 10 from the zero state. -/
theorem estimator_step_witness :
    (glyphAction 1 (loaded (initGlobals 0 0) ⟨65, [10, 1, 0, 0, 0], []⟩)).totalGlyphSize
        = (loaded (initGlobals 0 0) ⟨65, [10, 1, 0, 0, 0], []⟩).totalGlyphSize
          + (byteAt (loaded (initGlobals 0 0) ⟨65, [10, 1, 0, 0, 0], []⟩).tablo 0 : Int) ∧
      (glyphAction 1 (loaded (initGlobals 0 0) ⟨65, [10, 1, 0, 0, 0], []⟩)).cntGlyphSize
        = (loaded (initGlobals 0 0) ⟨65, [10, 1, 0, 0, 0], []⟩).cntGlyphSize + 1 ∧
      (glyphAction 1 (loaded (initGlobals 0 0) ⟨65, [10, 1, 0, 0, 0], []⟩)).averageGlyphSize
        = Int.fdiv
            ((glyphAction 1 (loaded (initGlobals 0 0) ⟨65, [10, 1, 0, 0, 0], []⟩)).totalGlyphSize * 2)
            ((glyphAction 1 (loaded (initGlobals 0 0) ⟨65, [10, 1, 0, 0, 0], []⟩)).cntGlyphSize * 3) :=
  estimator_step.2.1 1 (loaded (initGlobals 0 0) ⟨65, [10, 1, 0, 0, 0], []⟩) (by decide)
    (by decide) (by decide) (by decide)

/-- An input that fails the length, magic or version check leaves through an
early exit of the header part with the globals untouched. -/
theorem readHeader_reject (content : List Byte) (g : Globals)
    (h : content.length < 17 ∨ (content.take 4).map Fin.val ≠ [0xE1, 0xE6, 0xD5, 0x1A] ∨
      (byteAt content 4 ≠ 0x11 ∧ byteAt content 4 ≠ 0x12)) :
    ∃ f, readHeader content g = .error (g, f) := by
  unfold readHeader
  rcases h17 : fread 17 content with ⟨_ | buffer, f1⟩
  · exact ⟨f1, rfl⟩
  · obtain ⟨-, hlen, hbuf, -⟩ := fread_some _ _ _ _ h17
    have hcond : strncmp (buffer.map Fin.val) magic 4 ≠ 0 ∨
        (toInt8 (byteAt buffer 4) ≠ 0x11 ∧ toInt8 (byteAt buffer 4) ≠ 0x12) := by
      have hb4 : byteAt buffer 4 = byteAt content 4 := by
        rw [hbuf]; exact byteAt_take _ _ _ (by omega)
      have hlt := byteAt_lt buffer 4
      rcases h with h | h | h
      · omega
      · left
        intro hz
        apply h
        have := (strncmp_magic_take _).1 hz
        rw [hbuf, ← List.map_take, List.take_take] at this
        simpa using this
      · right
        rw [← hb4] at h
        exact ⟨fun e => h.1 ((toInt8_eq_17 _ hlt).1 e), fun e => h.2 ((toInt8_eq_18 _ hlt).1 e)⟩
    refine ⟨f1, ?_⟩
    simp only []
    rw [if_pos hcond]

/-- C6. Magic/version rejection: an input shorter than 17 bytes, or whose
first four bytes are not E1 E6 D5 1A, or whose fifth byte is neither 0x11 nor
0x12, makes `processBMF` return 0 in the analysis and in the emission pass
with the globals (the output among them) untouched, and the whole conversion
writes nothing. -/
theorem magic_version_rejection (content : List Byte) (optP optX : Int) (g : Globals)
    (h : content.length < 17 ∨ (content.take 4).map Fin.val ≠ [0xE1, 0xE6, 0xD5, 0x1A] ∨
      (byteAt content 4 ≠ 0x11 ∧ byteAt content 4 ≠ 0x12)) :
    (processBMF content 1 g).1 = 0 ∧ (processBMF content 0 g).1 = 0 ∧
    (processBMF content 1 g).2.1 = g ∧ (processBMF content 0 g).2.1 = g ∧
    (main optP optX content).out = [] := by
  obtain ⟨f, hf⟩ := readHeader_reject content g h
  obtain ⟨f0, hf0⟩ := readHeader_reject content (initGlobals optP optX) h
  have e1 := processBMF_error content 1 g _ hf
  have e0 := processBMF_error content 0 g _ hf
  have i1 := processBMF_error content 1 (initGlobals optP optX) _ hf0
  have i0 := processBMF_error content 0 (initGlobals optP optX) _ hf0
  refine ⟨by rw [e1], by rw [e0], by rw [e1], by rw [e0], ?_⟩
  unfold main
  simp only [i1, i0]
  rfl

/-- Witness of C6: a three byte file. -/
theorem magic_version_rejection_witness :
    (processBMF [1, 2, 3] 1 (initGlobals 0 0)).1 = 0 ∧
    (processBMF [1, 2, 3] 0 (initGlobals 0 0)).1 = 0 ∧
    (processBMF [1, 2, 3] 1 (initGlobals 0 0)).2.1 = initGlobals 0 0 ∧
    (processBMF [1, 2, 3] 0 (initGlobals 0 0)).2.1 = initGlobals 0 0 ∧
    (main 0 0 [1, 2, 3]).out = [] :=
  magic_version_rejection [1, 2, 3] 0 0 (initGlobals 0 0) (Or.inl (by decide))

theorem decodeGlyphs_length (n : Nat) : ∀ file : List Byte,
    ((decodeGlyphs n file).2.1 = true → (decodeGlyphs n file).1.length = n) ∧
    ((decodeGlyphs n file).2.1 = false → (decodeGlyphs n file).1.length < n) := by
  induction n with
  | zero => intro file; simp [decodeGlyphs]
  | succ n ih =>
    intro file
    rcases hd : decodeGlyph file with _ | ⟨gl, rest⟩
    · simp [decodeGlyphs, hd]
    · have := ih rest
      simp only [decodeGlyphs, hd, List.length_cons]
      constructor
      · intro h; rw [this.1 h]
      · intro h; have := this.2 h; omega

/-- The records decoded are the leading bytes of the stream, each with 5
metric bytes and `width*height` bitmap bytes; on success the unread input is
what follows them. -/
theorem decodeGlyphs_layout (n : Nat) : ∀ file : List Byte,
    (∀ gl ∈ (decodeGlyphs n file).1,
      gl.metrics.length = 5 ∧ gl.bitmap.length = gl.width * gl.height) ∧
    ((decodeGlyphs n file).2.1 = true →
      file = (decodeGlyphs n file).1.flatMap glyphBytes ++ (decodeGlyphs n file).2.2) := by
  induction n with
  | zero => intro file; simp [decodeGlyphs]
  | succ n ih =>
    intro file
    rcases hd : decodeGlyph file with _ | ⟨gl, rest⟩
    · simp [decodeGlyphs, hd]
    · obtain ⟨hfile, hm, hb⟩ := decodeGlyph_some file rest gl hd
      obtain ⟨h1, h2⟩ := ih rest
      simp only [decodeGlyphs, hd, List.mem_cons, List.flatMap_cons, List.append_assoc]
      constructor
      · rintro g' (rfl | hg')
        · exact ⟨hm, hb⟩
        · exact h1 g' hg'
      · intro hok
        rw [← h2 hok]
        exact hfile

/-- The return value and the unread input of the glyph loop, in either pass. -/
theorem glyphLoop_ret (a : Int) (n : Nat) : ∀ (file : List Byte) (g : Globals),
    (glyphLoop a n file g).1 = (if (decodeGlyphs n file).2.1 then 1 else 0) ∧
    (glyphLoop a n file g).2.2 = (decodeGlyphs n file).2.2 := by
  induction n with
  | zero => intro file g; simp [glyphLoop, decodeGlyphs]
  | succ n ih =>
    intro file g
    rcases hd : decodeGlyph file with _ | ⟨gl, rest⟩
    · obtain ⟨g', hg', -, -⟩ := (glyphLoop_succ a n file g).1 hd
      rw [hg']
      simp [decodeGlyphs, hd]
    · rw [(glyphLoop_succ a n file g).2 gl rest hd]
      obtain ⟨h1, h2⟩ := ih rest (glyphAction a (loaded g gl))
      rw [h1, h2]
      simp [decodeGlyphs, hd]

/-- Function `readWord` on a stream with two bytes left is the little-endian
word; on a shorter stream `EOF` reads as 255, the result is positive and
nothing is left. -/
theorem readWord_cases (tail : List Byte) :
    (∃ lo hi f, tail = lo :: hi :: f ∧ readWord tail = (lo.val + 256 * hi.val, f)) ∨
    ((readWord tail).2 = [] ∧ 0 < (readWord tail).1) := by
  rcases tail with _ | ⟨lo, _ | ⟨hi, f⟩⟩
  · right
    exact ⟨rfl, by decide⟩
  · right
    refine ⟨rfl, ?_⟩
    simp only [readWord, fgetc, toUInt8_val]
    have : toUInt8 (-1) = 255 := by decide
    rw [this]
    omega
  · left
    refine ⟨lo, hi, f, rfl, ?_⟩
    simp only [readWord, fgetc, toUInt8_val]
    have h1 := lo.isLt
    have h2 := hi.isLt
    congr 1
    omega

theorem decodeGlyphs_nil_ok (n : Nat) (h : (decodeGlyphs n []).2.1 = true) : n = 0 := by
  cases n with
  | zero => rfl
  | succ n => simp [decodeGlyphs, decodeGlyph] at h

/-- What the input looks like when `processBMF` returns 1, in either pass. -/
theorem processBMF_success (content : List Byte) (a : Int) (g : Globals)
    (h : (processBMF content a g).1 = 1) :
    ∃ (g' : Globals) (pal title : List Byte) (L lo hi : Byte) (gs : List Glyph),
      readHeader content g
        = .ok (g', gs.flatMap glyphBytes ++ (processBMF content a g).2.2) ∧
      content = content.take 17 ++ pal ++ L :: title
        ++ lo :: hi :: (gs.flatMap glyphBytes ++ (processBMF content a g).2.2) ∧
      g'.asciiChars = lo.val + 256 * hi.val ∧
      decodeGlyphs g'.asciiChars (gs.flatMap glyphBytes ++ (processBMF content a g).2.2)
        = (gs, true, (processBMF content a g).2.2) ∧
      gs.length = lo.val + 256 * hi.val ∧
      (∀ gl ∈ gs, gl.metrics.length = 5 ∧ gl.bitmap.length = gl.width * gl.height) ∧
      g'.numColors = toInt8 (byteAt content 16) ∧
      pal.length = toSizeT (g'.numColors * 3) ∧ pal.length ≠ 0 ∧
      title.length = L.val ∧ L.val ≠ 0 := by
  rcases hr : readHeader content g with r | ⟨g', file⟩
  · rw [processBMF_error content a g r hr] at h
    simp at h
  · obtain ⟨pal, title, L, tail, hcont, -, -, -, hnc, hpl, hp0, htl, hL0, -, -, -, -, hn, hfile⟩ :=
      readHeader_ok content g g' file hr
    have hloop : processBMF content a g
        = glyphLoop a g'.asciiChars file
            (if a = 0 then write_bdf_header g' else g') := by
      unfold processBMF
      rw [hr]
      by_cases ha : a = 0
      · subst ha
        simp only [if_true, write_bdf_header_eq]
        rfl
      · simp only [ha, if_false]
    obtain ⟨h1, h2⟩ := glyphLoop_ret a g'.asciiChars file
      (if a = 0 then write_bdf_header g' else g')
    rw [← hloop] at h1 h2
    have hok : (decodeGlyphs g'.asciiChars file).2.1 = true := by
      by_cases hb : (decodeGlyphs g'.asciiChars file).2.1 = true
      · exact hb
      · rw [h, if_neg hb] at h1
        omega
    obtain ⟨hmet, hlay⟩ := decodeGlyphs_layout g'.asciiChars file
    have hlay' := hlay hok
    have hlen := (decodeGlyphs_length g'.asciiChars file).1 hok
    rcases readWord_cases tail with ⟨lo, hi, f, htail, hrw⟩ | ⟨hnil, hpos⟩
    · rw [hrw] at hn hfile
      simp only at hn hfile
      refine ⟨g', pal, title, L, lo, hi, (decodeGlyphs g'.asciiChars file).1, ?_, ?_, hn, ?_,
        ?_, hmet, hnc, hpl, hp0, htl, hL0⟩
      · rw [h2, ← hlay']
      · rw [h2, ← hlay', hfile, ← htail]
        exact hcont
      · rw [h2, ← hlay']
        apply Prod.ext
        · rfl
        · apply Prod.ext
          · exact hok
          · rfl
      · rw [hlen, hn]
    · exfalso
      rw [← hfile] at hnil
      rw [hnil] at hok
      have := decodeGlyphs_nil_ok _ hok
      omega

theorem charBody_endchar (g : Globals) : ∃ mid, charBody g = mid ++ "ENDCHAR\n".toList := by
  refine ⟨dwidthLine (dwidthOf g)
    ++ bbxLine (glyphWidth g) (glyphHeight g) (toInt8 (byteAt g.tablo 2))
        (-(g.sizeOver + (glyphHeight g : Int) + toInt8 (byteAt g.tablo 3)))
    ++ ("BITMAP\n".toList ++ (List.range (glyphHeight g)).flatMap (rowText g)), ?_⟩
  simp only [charBody, bitmapSection, List.append_assoc]

/-- C8. Glyph count and order: when the emission pass succeeds, the input is
header, palette, title, the two count bytes `lo hi` and `n = lo + 256*hi`
glyph records followed by unread bytes; the text written is the header with
the line `CHARS n` and then exactly `n` records, the `i`-th of which starts
`STARTCHAR e`, `ENCODING e` with `e` the encoding byte of the `i`-th record
of the input, and ends `ENDCHAR`; nothing is filtered, sorted or merged. -/
theorem glyph_count_and_order (content : List Byte) (g : Globals)
    (h : (processBMF content 0 g).1 = 1) :
    ∃ (g' : Globals) (pal title : List Byte) (L lo hi : Byte) (gs : List Glyph),
      readHeader content g
        = .ok (g', gs.flatMap glyphBytes ++ (processBMF content 0 g).2.2) ∧
      content = content.take 17 ++ pal ++ L :: title
        ++ lo :: hi :: (gs.flatMap glyphBytes ++ (processBMF content 0 g).2.2) ∧
      gs.length = lo.val + 256 * hi.val ∧ lo.val + 256 * hi.val < 65536 ∧
      (∀ gl ∈ gs, glyphBytes gl = gl.encoding :: (gl.metrics ++ gl.bitmap) ∧
        gl.encoding.val < 256 ∧ gl.metrics.length = 5 ∧
        gl.bitmap.length = gl.width * gl.height) ∧
      (processBMF content 0 g).2.1.out
        = g.out ++ (headerLead g'.title ++ charsLine (lo.val + 256 * hi.val)
            ++ (gs.map (fun gl => startLines gl.encoding.val ++ charBody (withGlyph g' gl))).flatten) ∧
      (gs.map (fun gl => startLines gl.encoding.val ++ charBody (withGlyph g' gl))).length
        = lo.val + 256 * hi.val ∧
      (∀ gl : Glyph, ∃ mid, charBody (withGlyph g' gl) = mid ++ "ENDCHAR\n".toList) := by
  obtain ⟨g', pal, title, L, lo, hi, gs, hr, hcont, hn, hdec, hlen, hmet, -, -, -, -, -⟩ :=
    processBMF_success content 0 g h
  refine ⟨g', pal, title, L, lo, hi, gs, hr, hcont, hlen, ?_, ?_, ?_, ?_, ?_⟩
  · have h1 := lo.isLt
    have h2 := hi.isLt
    omega
  · intro gl hgl
    exact ⟨rfl, gl.encoding.isLt, (hmet gl hgl).1, (hmet gl hgl).2⟩
  · rw [processBMF_emit_out content g g' _ hr, hdec, hn]
    rfl
  · rw [List.length_map, hlen]
  · intro gl
    exact charBody_endchar _

/-- Witness of C8: the example file with three glyphs. -/
theorem glyph_count_and_order_witness :
    ∃ (g' : Globals) (pal title : List Byte) (L lo hi : Byte) (gs : List Glyph),
      readHeader exFile (initGlobals 0 0)
        = .ok (g', gs.flatMap glyphBytes ++ (processBMF exFile 0 (initGlobals 0 0)).2.2) ∧
      exFile = exFile.take 17 ++ pal ++ L :: title
        ++ lo :: hi :: (gs.flatMap glyphBytes ++ (processBMF exFile 0 (initGlobals 0 0)).2.2) ∧
      gs.length = lo.val + 256 * hi.val ∧ lo.val + 256 * hi.val < 65536 ∧
      (∀ gl ∈ gs, glyphBytes gl = gl.encoding :: (gl.metrics ++ gl.bitmap) ∧
        gl.encoding.val < 256 ∧ gl.metrics.length = 5 ∧
        gl.bitmap.length = gl.width * gl.height) ∧
      (processBMF exFile 0 (initGlobals 0 0)).2.1.out
        = (initGlobals 0 0).out ++ (headerLead g'.title ++ charsLine (lo.val + 256 * hi.val)
            ++ (gs.map (fun gl => startLines gl.encoding.val ++ charBody (withGlyph g' gl))).flatten) ∧
      (gs.map (fun gl => startLines gl.encoding.val ++ charBody (withGlyph g' gl))).length
        = lo.val + 256 * hi.val ∧
      (∀ gl : Glyph, ∃ mid, charBody (withGlyph g' gl) = mid ++ "ENDCHAR\n".toList) :=
  glyph_count_and_order exFile (initGlobals 0 0) (by decide)

theorem flatMap_glyphBytes_length (gs : List Glyph)
    (h : ∀ gl ∈ gs, gl.metrics.length = 5 ∧ gl.bitmap.length = gl.width * gl.height) :
    (gs.flatMap glyphBytes).length = (gs.map (fun gl => 6 + gl.width * gl.height)).sum := by
  induction gs with
  | nil => rfl
  | cons gl gs ih =>
    have h1 := h gl (List.mem_cons_self _ _)
    have h2 := ih (fun x hx => h x (List.mem_cons_of_mem _ hx))
    simp only [List.flatMap_cons, List.length_append, List.map_cons, List.sum_cons, h2,
      glyphBytes, List.length_cons, h1.1, h1.2]
    omega

theorem toSizeT_numColors (c : Int) (n bound : Nat) (hc1 : -128 ≤ c) (hc2 : c ≤ 127)
    (hn : n = toSizeT (c * 3)) (h0 : n ≠ 0) (hb : n ≤ bound) (hbound : bound < 2 ^ 63) :
    1 ≤ c ∧ n = 3 * c.toNat := by
  unfold toSizeT at hn
  have e : (2 : Int) ^ 64 = 18446744073709551616 := by norm_num
  have e' : (2 : Nat) ^ 63 = 9223372036854775808 := by norm_num
  rw [e] at hn
  rw [e'] at hbound
  by_cases hneg : c < 0
  · have key : (c * 3) % 18446744073709551616 = c * 3 + 18446744073709551616 := by
      rw [← Int.add_emod_self]
      exact Int.emod_eq_of_lt (by omega) (by omega)
    rw [key] at hn
    omega
  · have key : (c * 3) % 18446744073709551616 = c * 3 :=
      Int.emod_eq_of_lt (by omega) (by omega)
    rw [key] at hn
    omega

/-- C9. Glyph record layout: when `processBMF` returns 1 (in either pass, on a
file of a size below 2^63), the input is the 17 header bytes, `3c` palette
bytes (`c = numColors ≥ 1`), the title length byte `t ≥ 1`, `t` title bytes,
the two count bytes, and the glyph records, each of 1 encoding byte, 5
metric bytes and `width*height` bitmap bytes (none when the width or height
is 0); the bytes consumed are `17 + 3c + 1 + t + 2 + Σ (6 + w_i*h_i)`; and
in the emission pass the record written for glyph `i` is computed with
exactly its own bitmap bytes as the bitmap. -/
theorem record_layout (content : List Byte) (a : Int) (g : Globals)
    (hsize : content.length < 2 ^ 63) (h : (processBMF content a g).1 = 1) :
    ∃ (g' : Globals) (pal title : List Byte) (L lo hi : Byte) (gs : List Glyph),
      content = content.take 17 ++ pal ++ L :: title
        ++ lo :: hi :: (gs.flatMap glyphBytes ++ (processBMF content a g).2.2) ∧
      (content.take 17).length = 17 ∧
      g'.numColors = toInt8 (byteAt content 16) ∧ 1 ≤ g'.numColors ∧
      pal.length = 3 * g'.numColors.toNat ∧
      title.length = L.val ∧ 1 ≤ L.val ∧
      gs.length = lo.val + 256 * hi.val ∧
      (∀ gl ∈ gs, glyphBytes gl = gl.encoding :: (gl.metrics ++ gl.bitmap) ∧
        gl.metrics.length = 5 ∧ gl.bitmap.length = gl.width * gl.height ∧
        gl.width = byteAt gl.metrics 0 ∧ gl.height = byteAt gl.metrics 1 ∧
        (gl.width = 0 ∨ gl.height = 0 → gl.bitmap = [])) ∧
      content.length - (processBMF content a g).2.2.length
        = 17 + 3 * g'.numColors.toNat + 1 + L.val + 2
          + (gs.map (fun gl => 6 + gl.width * gl.height)).sum ∧
      (a = 0 → (processBMF content a g).2.1.out
        = g.out ++ (headerLead g'.title ++ charsLine (lo.val + 256 * hi.val)
            ++ gs.flatMap (fun gl => charText (withGlyph g' gl) gl.encoding.val)) ∧
          ∀ gl, (withGlyph g' gl).bitmap = gl.bitmap ∧ (withGlyph g' gl).tablo = gl.metrics) := by
  obtain ⟨g', pal, title, L, lo, hi, gs, hr, hcont, hn, hdec, hlen, hmet, hnc, hpl, hp0, htl, hL0⟩ :=
    processBMF_success content a g h
  have h17 : 17 ≤ content.length := by
    obtain ⟨_, _, _, _, -, h17, -⟩ := readHeader_ok content g g' _ hr
    exact h17
  have ht17 : (content.take 17).length = 17 := by
    rw [List.length_take]; omega
  have hlenEq := congrArg List.length hcont
  simp only [List.length_append, List.length_cons, ht17] at hlenEq
  have hrange := toInt8_range (byteAt content 16) (byteAt_lt _ _)
  rw [← hnc] at hrange
  obtain ⟨hc1, hpal⟩ := toSizeT_numColors g'.numColors pal.length content.length hrange.1
    hrange.2 hpl hp0 (by omega) hsize
  have hsum := flatMap_glyphBytes_length gs hmet
  refine ⟨g', pal, title, L, lo, hi, gs, hcont, ht17, hnc, hc1, hpal, htl, by omega, hlen, ?_,
    ?_, ?_⟩
  · intro gl hgl
    refine ⟨rfl, (hmet gl hgl).1, (hmet gl hgl).2, rfl, rfl, ?_⟩
    intro hz
    have hb := (hmet gl hgl).2
    have : gl.width * gl.height = 0 := by
      rcases hz with hz | hz <;> simp [hz]
    rw [this] at hb
    exact List.length_eq_zero.1 hb
  · omega
  · intro ha
    subst ha
    refine ⟨?_, fun gl => ⟨rfl, rfl⟩⟩
    rw [processBMF_emit_out content g g' _ hr, hdec, hn]
    rfl

/-- Witness of C9: the emission pass over the example file. -/
theorem record_layout_witness :
    ∃ (g' : Globals) (pal title : List Byte) (L lo hi : Byte) (gs : List Glyph),
      exFile = exFile.take 17 ++ pal ++ L :: title
        ++ lo :: hi :: (gs.flatMap glyphBytes ++ (processBMF exFile 0 (initGlobals 0 0)).2.2) ∧
      (exFile.take 17).length = 17 ∧
      g'.numColors = toInt8 (byteAt exFile 16) ∧ 1 ≤ g'.numColors ∧
      pal.length = 3 * g'.numColors.toNat ∧
      title.length = L.val ∧ 1 ≤ L.val ∧
      gs.length = lo.val + 256 * hi.val ∧
      (∀ gl ∈ gs, glyphBytes gl = gl.encoding :: (gl.metrics ++ gl.bitmap) ∧
        gl.metrics.length = 5 ∧ gl.bitmap.length = gl.width * gl.height ∧
        gl.width = byteAt gl.metrics 0 ∧ gl.height = byteAt gl.metrics 1 ∧
        (gl.width = 0 ∨ gl.height = 0 → gl.bitmap = [])) ∧
      exFile.length - (processBMF exFile 0 (initGlobals 0 0)).2.2.length
        = 17 + 3 * g'.numColors.toNat + 1 + L.val + 2
          + (gs.map (fun gl => 6 + gl.width * gl.height)).sum ∧
      ((0 : Int) = 0 → (processBMF exFile 0 (initGlobals 0 0)).2.1.out
        = (initGlobals 0 0).out ++ (headerLead g'.title ++ charsLine (lo.val + 256 * hi.val)
            ++ gs.flatMap (fun gl => charText (withGlyph g' gl) gl.encoding.val)) ∧
          ∀ gl, (withGlyph g' gl).bitmap = gl.bitmap ∧ (withGlyph g' gl).tablo = gl.metrics) :=
  record_layout exFile 0 (initGlobals 0 0) (by decide) (by decide)

/-- The analysis pass writes nothing and leaves the two options alone. -/
theorem processBMF_analyze_frame (content : List Byte) (a : Int) (ha : a ≠ 0) (g : Globals)
    (ht : 0 ≤ g.totalGlyphSize) (hc : 0 ≤ g.cntGlyphSize) :
    (processBMF content a g).2.1.out = g.out ∧
    (processBMF content a g).2.1.optionForceProportional = g.optionForceProportional ∧
    (processBMF content a g).2.1.optionAddExtraSpace = g.optionAddExtraSpace := by
  rcases hr : readHeader content g with r | ⟨g', file⟩
  · rw [processBMF_error content a g r hr]
    obtain ⟨h1, h2, h3, -⟩ := readHeader_frame content g r (Or.inl hr)
    exact ⟨h1, h2, h3⟩
  · rw [processBMF_analyze content a ha g g' file hr]
    obtain ⟨h1, h2, h3, h4, h5, -⟩ := readHeader_frame content g (g', file) (Or.inr hr)
    simp only at h1 h2 h3 h4 h5
    obtain ⟨-, -, k3, k4, -⟩ := glyphLoop_analyze a ha g'.asciiChars file g'
      (by rw [h4]; exact ht) (by rw [h5]; exact hc)
    refine ⟨by rw [k3, h1], ?_, ?_⟩
    · have := congrArg (fun s => s.optionForceProportional) k4
      simp only [ctxNoAcc, ctxOf] at this
      rw [this, h2]
    · have := congrArg (fun s => s.optionAddExtraSpace) k4
      simp only [ctxNoAcc, ctxOf] at this
      rw [this, h3]

/-- The emission pass leaves the estimator and the two options alone. -/
theorem processBMF_emit_frame (content : List Byte) (g : Globals) :
    (processBMF content 0 g).2.1.totalGlyphSize = g.totalGlyphSize ∧
    (processBMF content 0 g).2.1.cntGlyphSize = g.cntGlyphSize ∧
    (processBMF content 0 g).2.1.averageGlyphSize = g.averageGlyphSize := by
  rcases hr : readHeader content g with r | ⟨g', file⟩
  · rw [processBMF_error content 0 g r hr]
    obtain ⟨-, -, -, h4, h5, h6⟩ := readHeader_frame content g r (Or.inl hr)
    exact ⟨h4, h5, h6⟩
  · rw [processBMF_emit content g g' file hr]
    obtain ⟨-, -, -, h4, h5, h6⟩ := readHeader_frame content g (g', file) (Or.inr hr)
    simp only at h4 h5 h6
    obtain ⟨-, -, -, k⟩ := glyphLoop_emit g'.asciiChars file
      (fprintf g' (headerLead g'.title ++ charsLine g'.asciiChars))
    have k1 := congrArg (fun s => s.totalGlyphSize) k
    have k2 := congrArg (fun s => s.cntGlyphSize) k
    have k3 := congrArg (fun s => s.averageGlyphSize) k
    exact ⟨(show _ = g'.totalGlyphSize from k1).trans h4,
      (show _ = g'.cntGlyphSize from k2).trans h5,
      (show _ = g'.averageGlyphSize from k3).trans h6⟩

theorem fread_zero_or_short (size : Nat) (file f : List Byte) (h : fread size file = (none, f)) :
    size = 0 ∨ file.length < size := by
  unfold fread at h
  split_ifs at h with h1 h2
  · exact Or.inl h1
  · simp at h
  · exact Or.inr (by omega)

/-- The glyph loop of the analysis pass leaves `numColors` alone. -/
theorem glyphLoop_numColors (a : Int) (n : Nat) :
    ∀ (file : List Byte) (g : Globals), (glyphLoop a n file g).2.1.numColors = g.numColors := by
  induction n with
  | zero => intro file g; rfl
  | succ n ih =>
    intro file g
    rcases hd : decodeGlyph file with _ | ⟨gl, rest⟩
    · obtain ⟨g', hg', hctx, -⟩ := (glyphLoop_succ a n file g).1 hd
      rw [hg']
      exact congrArg (fun s => s.numColors) hctx
    · rw [(glyphLoop_succ a n file g).2 gl rest hd, ih, glyphAction_unfold]
      simp only [write_bdf_bitmap_eq]
      split_ifs <;> rfl


/-! ## Hex text, glyph count, header text, pass separation -/

theorem hexDigit_getD (x : Nat) (hx : x < 16) : hexDigit x = hexDigits.getD x '0' := by
  interval_cases x <;> decide

theorem hexVal_hexDigit (x : Nat) (hx : x < 16) : hexVal (hexDigit x) = x := by
  interval_cases x <;> decide

theorem nibbles (v : Nat) (hv : v < 256) :
    v >>> 4 = v / 16 ∧ v &&& 15 = v % 16 ∧ v / 16 < 16 ∧ v % 16 < 16 := by
  refine ⟨?_, ?_, by omega, by omega⟩
  · rw [Nat.shiftRight_eq_div_pow]
  · have := Nat.and_pow_two_sub_one_eq_mod v 4
    norm_num at this
    exact this

/-- C12. Hex emission: for a byte `v`, `write_byte` appends exactly two
characters, the digit of the high nibble `v >> 4 = v / 16` and then the digit
of the low nibble `v & 15 = v % 16`, both taken from `0123456789abcdef`;
read back in base 16 they give `v`, so different bytes give different text. -/
theorem hex_emission (g : Globals) (v : Nat) (hv : v < 256) :
    (write_byte g v).out = g.out ++ [hexDigits.getD (v / 16) '0', hexDigits.getD (v % 16) '0'] ∧
    v >>> 4 = v / 16 ∧ v &&& 15 = v % 16 ∧
    hexDigits.getD (v / 16) '0' ∈ "0123456789abcdef".toList ∧
    hexDigits.getD (v % 16) '0' ∈ "0123456789abcdef".toList ∧
    hexVal (hexDigits.getD (v / 16) '0') * 16 + hexVal (hexDigits.getD (v % 16) '0') = v ∧
    (∀ (g2 : Globals) (v2 : Nat), v2 < 256 →
      (write_byte g2 v2).out.drop g2.out.length = (write_byte g v).out.drop g.out.length →
        v2 = v) := by
  obtain ⟨h1, h2, h3, h4⟩ := nibbles v hv
  have hout : ∀ (g0 : Globals) (u : Nat), u < 256 →
      (write_byte g0 u).out = g0.out ++ [hexDigits.getD (u / 16) '0', hexDigits.getD (u % 16) '0'] := by
    intro g0 u hu
    obtain ⟨u1, u2, u3, u4⟩ := nibbles u hu
    rw [write_byte_eq]
    simp only [fprintf, hexByte, u1, u2, hexDigit_getD _ u3, hexDigit_getD _ u4]
  have hback : ∀ u : Nat, u < 256 →
      hexVal (hexDigits.getD (u / 16) '0') * 16 + hexVal (hexDigits.getD (u % 16) '0') = u := by
    intro u hu
    obtain ⟨-, -, u3, u4⟩ := nibbles u hu
    rw [← hexDigit_getD _ u3, ← hexDigit_getD _ u4, hexVal_hexDigit _ u3, hexVal_hexDigit _ u4]
    omega
  refine ⟨hout g v hv, h1, h2, ?_, ?_, hback v hv, ?_⟩
  · rw [← hexDigit_getD _ h3]; exact hexDigit_mem _ h3
  · rw [← hexDigit_getD _ h4]; exact hexDigit_mem _ h4
  · intro g2 v2 hv2 heq
    rw [hout g v hv, hout g2 v2 hv2, List.drop_left, List.drop_left] at heq
    simp only [List.cons.injEq, and_true] at heq
    have b1 := hback v hv
    have b2 := hback v2 hv2
    rw [heq.1, heq.2] at b2
    omega

/-- Witness of C12: the byte 0xa7. -/
theorem hex_emission_witness :
    (write_byte (initGlobals 0 0) 167).out
      = (initGlobals 0 0).out ++ [hexDigits.getD (167 / 16) '0', hexDigits.getD (167 % 16) '0'] ∧
    hexVal (hexDigits.getD (167 / 16) '0') * 16 + hexVal (hexDigits.getD (167 % 16) '0') = 167 :=
  ⟨(hex_emission (initGlobals 0 0) 167 (by decide)).1,
    (hex_emission (initGlobals 0 0) 167 (by decide)).2.2.2.2.2.1⟩

/-- The glyph loop runs with the count stored in `asciiChars`. -/
theorem processBMF_loop (content : List Byte) (a : Int) (g g' : Globals) (file : List Byte)
    (h : readHeader content g = .ok (g', file)) :
    processBMF content a g
      = glyphLoop a g'.asciiChars file (if a = 0 then write_bdf_header g' else g') := by
  unfold processBMF
  rw [h]
  by_cases ha : a = 0
  · subst ha
    simp only [if_true, write_bdf_header_eq]
    rfl
  · simp only [ha, if_false]

/-- C18 on the code: the text of `write_bdf_header`. The `COPYRIGHT` property
is written without a newline, so the block declared as `STARTPROPERTIES 3`
holds two lines, `COPYRIGHT "http://bmf.php5.cz"FONT_ASCENT 0` and
`FONT_DESCENT 0`, not three. -/
theorem header_properties_text (g : Globals) :
    (write_bdf_header g).out
      = g.out ++ ("STARTFONT 2.1\nFONT \"".toList ++ fmtS g.title
          ++ "\"\nSIZE 16 75 75\nFONTBOUNDINGBOX 16 16 0 0\n".toList
          ++ "STARTPROPERTIES 3\n".toList
          ++ "COPYRIGHT \"http://bmf.php5.cz\"FONT_ASCENT 0\nFONT_DESCENT 0\n".toList
          ++ "ENDPROPERTIES\n".toList
          ++ charsLine g.asciiChars) ∧
    ("COPYRIGHT \"http://bmf.php5.cz\"FONT_ASCENT 0\nFONT_DESCENT 0\n".toList.filter
      (fun c => c = Char.ofNat 10)).length = 2 := by
  refine ⟨?_, by decide⟩
  rw [write_bdf_header_eq]
  simp only [fprintf, headerLead, List.append_assoc]
  rfl

theorem glyphAction_analyze_out (a : Int) (ha : a ≠ 0) (g : Globals) :
    (glyphAction a g).out = g.out := by
  rw [glyphAction_unfold]
  simp only [ha, ne_eq, not_false_eq_true, if_true]
  split_ifs <;> rfl

theorem glyphLoop_analyze_out (a : Int) (ha : a ≠ 0) (n : Nat) :
    ∀ (file : List Byte) (g : Globals), (glyphLoop a n file g).2.1.out = g.out := by
  induction n with
  | zero => intro file g; rfl
  | succ n ih =>
    intro file g
    rcases hd : decodeGlyph file with _ | ⟨gl, rest⟩
    · obtain ⟨g', hg', -, hout⟩ := (glyphLoop_succ a n file g).1 hd
      rw [hg']
      exact hout
    · rw [(glyphLoop_succ a n file g).2 gl rest hd, ih, glyphAction_analyze_out a ha]
      rfl

/-- C16 on the code: a title length byte of 0 makes `fread(title, 0, 1, file)`
return 0, so the pass returns 0 and writes nothing, where the claim has it
succeed with `FONT ""`; the header part never succeeds with title length 0. -/
theorem empty_title_rejected :
    (processBMF exEmptyTitle 0 (initGlobals 0 0)).1 = 0 ∧
    (processBMF exEmptyTitle 0 (initGlobals 0 0)).2.1.out = [] ∧
    (processBMF exEmptyTitle 1 (initGlobals 0 0)).1 = 0 ∧
    byteAt exEmptyTitle 20 = 0 ∧
    (∀ (content : List Byte) (g g' : Globals) (file : List Byte),
      readHeader content g = .ok (g', file) → g'.titleLength ≠ 0) := by
  refine ⟨by decide, by decide, by decide, by decide, ?_⟩
  intro content g g' file h
  obtain ⟨pal, title, L, tail, -, -, -, -, -, -, -, -, hL0, hL, -⟩ :=
    readHeader_ok content g g' file h
  rw [hL]
  exact hL0

/-- After the magic and version check `numColors` is header byte 16 read as signed. -/
theorem readHeader_numColors (content : List Byte) (g : Globals) (r : Globals × List Byte)
    (hlen : 17 ≤ content.length)
    (hmagic : (content.take 4).map Fin.val = [0xE1, 0xE6, 0xD5, 0x1A])
    (hver : byteAt content 4 = 0x11 ∨ byteAt content 4 = 0x12)
    (h : readHeader content g = .error r ∨ readHeader content g = .ok r) :
    r.1.numColors = toInt8 (byteAt content 16) := by
  unfold readHeader at h
  rcases h17 : fread 17 content with ⟨_ | buffer, f1⟩
  · rcases fread_zero_or_short _ _ _ h17 with h0 | h0 <;> omega
  · simp only [h17] at h
    obtain ⟨-, -, hbuf, -⟩ := fread_some _ _ _ _ h17
    have hb4 : byteAt buffer 4 = byteAt content 4 := by
      rw [hbuf]; exact byteAt_take _ _ _ (by omega)
    have hb16 : byteAt buffer 16 = byteAt content 16 := by
      rw [hbuf]; exact byteAt_take _ _ _ (by omega)
    have hcond : ¬ (strncmp (buffer.map Fin.val) magic 4 ≠ 0 ∨
        (toInt8 (byteAt buffer 4) ≠ 0x11 ∧ toInt8 (byteAt buffer 4) ≠ 0x12)) := by
      have hz : strncmp (buffer.map Fin.val) magic 4 = 0 := by
        rw [strncmp_magic_take, hbuf, ← List.map_take, List.take_take]
        simpa using hmagic
      have hlt := byteAt_lt buffer 4
      rintro (h1 | ⟨h2, h3⟩)
      · exact h1 hz
      · rw [hb4] at h2 h3
        rcases hver with hv | hv
        · exact h2 ((toInt8_eq_17 _ (byteAt_lt _ _)).2 hv)
        · exact h3 ((toInt8_eq_18 _ (byteAt_lt _ _)).2 hv)
    rw [if_neg hcond] at h
    rcases hp : fread (toSizeT (toInt8 (byteAt buffer 16) * 3)) f1 with ⟨_ | pal, f2⟩
    · simp only [hp] at h
      rcases h with h | h
      · cases h; simp only [hb16]
      · cases h
    · simp only [hp] at h
      rcases ht : fread (toUInt8 (fgetc f2).1) (fgetc f2).2 with ⟨_ | t, f3⟩
      · simp only [ht] at h
        rcases h with h | h
        · cases h; simp only [hb16]
        · cases h
      · simp only [ht] at h
        rcases h with h | h
        · cases h
        · cases h; simp only [hb16]

/-- After a pass over an input that passes the magic and version check,
`numColors` is header byte 16 read as signed. -/
theorem processBMF_numColors (content : List Byte) (a : Int) (g : Globals)
    (hlen : 17 ≤ content.length)
    (hmagic : (content.take 4).map Fin.val = [0xE1, 0xE6, 0xD5, 0x1A])
    (hver : byteAt content 4 = 0x11 ∨ byteAt content 4 = 0x12) :
    (processBMF content a g).2.1.numColors = toInt8 (byteAt content 16) := by
  rcases hr : readHeader content g with r | ⟨g', file⟩
  · rw [processBMF_error content a g r hr]
    exact readHeader_numColors content g r hlen hmagic hver (Or.inl hr)
  · have h1 := readHeader_numColors content g (g', file) hlen hmagic hver (Or.inr hr)
    rw [processBMF_loop content a g g' file hr]
    by_cases ha : a = 0
    · subst ha
      rw [if_pos rfl, write_bdf_header_eq]
      have k := (glyphLoop_emit g'.asciiChars file
        (fprintf g' (headerLead g'.title ++ charsLine g'.asciiChars))).2.2.2
      have k1 := congrArg (fun s => s.numColors) k
      exact (show _ = g'.numColors from k1).trans h1
    · rw [if_neg ha]
      exact (glyphLoop_numColors a g'.asciiChars file g').trans h1

/-- The palette buffer after a successful header part. -/
theorem readHeader_ok_palette (content : List Byte) (g g' : Globals) (file : List Byte)
    (h : readHeader content g = .ok (g', file)) :
    g'.palette
      = ((store ((content.drop 17).take (toSizeT (toInt8 (byteAt content 16) * 3))) g.palette).take
            (toInt8 (byteAt content 16) * 3).toNat).map times4
        ++ (store ((content.drop 17).take (toSizeT (toInt8 (byteAt content 16) * 3))) g.palette).drop
            (toInt8 (byteAt content 16) * 3).toNat ∧
    toSizeT (toInt8 (byteAt content 16) * 3) ≤ (content.drop 17).length := by
  unfold readHeader at h
  rcases h17 : fread 17 content with ⟨_ | buffer, f1⟩
  · simp only [h17] at h
    cases h
  · simp only [h17] at h
    obtain ⟨-, hlen, hbuf, hf1⟩ := fread_some _ _ _ _ h17
    have hb16 : byteAt buffer 16 = byteAt content 16 := by
      rw [hbuf]; exact byteAt_take _ _ _ (by omega)
    split_ifs at h with hm
    rcases hp : fread (toSizeT (toInt8 (byteAt buffer 16) * 3)) f1 with ⟨_ | pal, f2⟩
    · simp only [hp] at h
      cases h
    · simp only [hp] at h
      obtain ⟨-, hplen, hpal, -⟩ := fread_some _ _ _ _ hp
      rcases ht : fread (toUInt8 (fgetc f2).1) (fgetc f2).2 with ⟨_ | t, f3⟩
      · simp only [ht] at h
        cases h
      · simp only [ht] at h
        simp only [Except.ok.injEq, Prod.mk.injEq] at h
        obtain ⟨hg', -⟩ := h
        subst hg'
        rw [hb16] at hpal hplen
        rw [hf1] at hpal hplen
        refine ⟨?_, hplen⟩
        simp only [hb16, hpal]

theorem byteAt_map_times4 (l : List Byte) (i : Nat) (hi : i < l.length) :
    byteAt (l.map times4) i = (byteAt l i * 4) % 256 := by
  unfold byteAt
  rw [List.getD_eq_getElem _ _ (by simpa using hi), List.getD_eq_getElem _ _ hi,
    List.getElem_map]
  rfl

theorem byteAt_append_left (l1 l2 : List Byte) (i : Nat) (hi : i < l1.length) :
    byteAt (l1 ++ l2) i = byteAt l1 i := by
  unfold byteAt
  rw [List.getD_append _ _ _ _ hi]

theorem byteAt_drop (l : List Byte) (k i : Nat) : byteAt (l.drop k) i = byteAt l (k + i) := by
  unfold byteAt
  simp only [List.getD_eq_getElem?_getD, List.getElem?_drop]

/-- C13 as stated fails: a palette source byte 64 is stored as 0, not as 256. -/
theorem palette_wrap_counterexample :
    byteAt exPalette64 17 = 64 ∧
    (processBMF exPalette64 0 (initGlobals 0 0)).1 = 1 ∧
    byteAt (processBMF exPalette64 0 (initGlobals 0 0)).2.1.palette 0 = 0 ∧
    byteAt (processBMF exPalette64 0 (initGlobals 0 0)).2.1.palette 0
      ≠ 4 * byteAt exPalette64 17 := by
  decide

/-- C13, amended. After the header and palette are decoded, every one of the
`numColors*3` stored channel values equals 4 times its source byte taken
modulo 256 (the palette is an array of `uint8_t`); for every source byte of
at most 63 this is exactly 4 times the source byte and does not exceed 255. -/
theorem palette_scaling (content : List Byte) (g g' : Globals) (file : List Byte)
    (h : readHeader content g = .ok (g', file)) (i : Nat)
    (hi : i < (g'.numColors * 3).toNat) :
    byteAt g'.palette i = (4 * byteAt content (17 + i)) % 256 ∧
    (byteAt content (17 + i) ≤ 63 →
      byteAt g'.palette i = 4 * byteAt content (17 + i) ∧ byteAt g'.palette i ≤ 255) := by
  obtain ⟨hpal, hple⟩ := readHeader_ok_palette content g g' file h
  obtain ⟨_, _, _, _, -, -, -, -, hnc, -⟩ := readHeader_ok content g g' file h
  rw [hnc] at hi
  have hrange := toInt8_range (byteAt content 16) (byteAt_lt _ _)
  have hP : toSizeT (toInt8 (byteAt content 16) * 3) = (toInt8 (byteAt content 16) * 3).toNat := by
    unfold toSizeT
    have e : (2 : Int) ^ 64 = 18446744073709551616 := by norm_num
    rw [e]
    have key : (toInt8 (byteAt content 16) * 3) % 18446744073709551616
        = toInt8 (byteAt content 16) * 3 := Int.emod_eq_of_lt (by omega) (by omega)
    rw [key]
  rw [hP] at hpal hple
  have hlenpal : ((content.drop 17).take (toInt8 (byteAt content 16) * 3).toNat).length
      = (toInt8 (byteAt content 16) * 3).toNat := by
    rw [List.length_take]; omega
  have htake : (store ((content.drop 17).take (toInt8 (byteAt content 16) * 3).toNat) g.palette).take
      (toInt8 (byteAt content 16) * 3).toNat
      = (content.drop 17).take (toInt8 (byteAt content 16) * 3).toNat := by
    unfold store
    rw [List.take_append_of_le_length (by omega), List.take_of_length_le (by omega)]
  have hval : byteAt g'.palette i = (byteAt content (17 + i) * 4) % 256 := by
    rw [hpal, htake, byteAt_append_left _ _ _ (by rw [List.length_map, hlenpal]; exact hi),
      byteAt_map_times4 _ _ (by rw [hlenpal]; exact hi), byteAt_take _ _ _ hi, byteAt_drop]
  refine ⟨by rw [hval]; congr 1; ring, ?_⟩
  intro h63
  rw [hval]
  omega

/-- Witness of C13 (amended): the first palette byte of the example file. -/
theorem palette_scaling_witness :
    byteAt exAfterHeader.1.palette 0 = (4 * byteAt exFile (17 + 0)) % 256 ∧
    (byteAt exFile (17 + 0) ≤ 63 →
      byteAt exAfterHeader.1.palette 0 = 4 * byteAt exFile (17 + 0) ∧
        byteAt exAfterHeader.1.palette 0 ≤ 255) :=
  palette_scaling exFile (initGlobals 0 0) exAfterHeader.1 exAfterHeader.2 (by rfl) 0 (by decide)

/-! ## Bounds of the estimator -/

theorem AccInv_of_acc_eq (g g' : Globals) (h1 : g'.totalGlyphSize = g.totalGlyphSize)
    (h2 : g'.cntGlyphSize = g.cntGlyphSize) (h3 : g'.averageGlyphSize = g.averageGlyphSize)
    (h : AccInv g) : AccInv g' := by
  unfold AccInv at *
  rw [h1, h2, h3]
  exact h

/-- One turn of the glyph loop keeps the estimator bounds, in either pass. -/
theorem AccInv_glyphAction (a : Int) (g : Globals) (h : AccInv g) : AccInv (glyphAction a g) := by
  rw [glyphAction_unfold]
  by_cases ha : a = 0
  · simp only [ha, ne_eq, not_true_eq_false, if_false, write_bdf_bitmap_eq]
    exact AccInv_of_acc_eq g _ rfl rfl rfl h
  · simp only [ha, ne_eq, not_false_eq_true, if_true]
    have hne : ¬ (g.cntGlyphSize + 1 = 0) := by have := h.1; omega
    simp only [hne, if_false]
    split_ifs with hl
    · obtain ⟨hc, ht, hb, -, -⟩ := h
      have hw := byteAt_lt g.tablo 0
      have hpos : 0 < (g.cntGlyphSize + 1) * 3 := by omega
      have hnum : 0 ≤ (g.totalGlyphSize + (byteAt g.tablo 0 : Int)) * 2 := by omega
      unfold AccInv
      simp only []
      rw [Int.tdiv_eq_ediv hnum (le_of_lt hpos)]
      refine ⟨by omega, by omega, by omega, Int.ediv_nonneg hnum (le_of_lt hpos), ?_⟩
      apply Int.ediv_le_of_le_mul hpos
      omega
    · exact h

theorem AccInv_glyphLoop (a : Int) (n : Nat) : ∀ (file : List Byte) (g : Globals),
    AccInv g → AccInv (glyphLoop a n file g).2.1 := by
  induction n with
  | zero => intro file g h; exact h
  | succ n ih =>
    intro file g h
    rcases hd : decodeGlyph file with _ | ⟨gl, rest⟩
    · obtain ⟨g', hg', hctx, -⟩ := (glyphLoop_succ a n file g).1 hd
      rw [hg']
      exact AccInv_of_acc_eq g g' (congrArg (fun s => s.totalGlyphSize) hctx)
        (congrArg (fun s => s.cntGlyphSize) hctx) (congrArg (fun s => s.averageGlyphSize) hctx) h
    · rw [(glyphLoop_succ a n file g).2 gl rest hd]
      apply ih
      apply AccInv_glyphAction
      exact AccInv_of_acc_eq g _ rfl rfl rfl h

theorem AccInv_processBMF (content : List Byte) (a : Int) (g : Globals) (h : AccInv g) :
    AccInv (processBMF content a g).2.1 := by
  rcases hr : readHeader content g with r | ⟨g', file⟩
  · rw [processBMF_error content a g r hr]
    obtain ⟨-, -, -, h4, h5, h6⟩ := readHeader_frame content g r (Or.inl hr)
    exact AccInv_of_acc_eq g r.1 h4 h5 h6 h
  · rw [processBMF_loop content a g g' file hr]
    obtain ⟨-, -, -, h4, h5, h6⟩ := readHeader_frame content g (g', file) (Or.inr hr)
    apply AccInv_glyphLoop
    have hg' : AccInv g' := AccInv_of_acc_eq g g' h4 h5 h6 h
    split_ifs
    · rw [write_bdf_header_eq]
      exact AccInv_of_acc_eq g' _ rfl rfl rfl hg'
    · exact hg'

theorem toUInt8_lt (c : Int) : toUInt8 c < 256 := by
  unfold toUInt8
  omega

theorem pixel_index_lt (w h x y : Nat) (hx : x < w) (hy : y < h) : x + y * w < w * h := by
  calc x + y * w < w + y * w := by omega
    _ = (y + 1) * w := by ring
    _ ≤ h * w := Nat.mul_le_mul_right _ hy
    _ = w * h := Nat.mul_comm _ _

/-! ## Independence of the palette and of earlier runs -/

theorem fmtS_terminated (t r1 r2 : List Byte) :
    fmtS (t ++ (0 : Byte) :: r1) = fmtS (t ++ (0 : Byte) :: r2) := by
  unfold fmtS
  congr 1
  induction t with
  | nil => simp [List.takeWhile]
  | cons b t ih =>
    simp only [List.cons_append, List.takeWhile_cons]
    split_ifs
    · rw [ih]
    · rfl

/-- The header part on two inputs that differ in the palette bytes only, from
any two states: both fail, or both succeed with the same unread input, glyph
count, `addSpace`, `sizeOver` and title text. -/
theorem readHeader_rel (c1 c2 : List Byte) (g1 g2 : Globals)
    (hlen : c1.length = c2.length) (hhead : c1.take 17 = c2.take 17)
    (htail : c1.drop (17 + toSizeT (toInt8 (byteAt c1 16) * 3))
      = c2.drop (17 + toSizeT (toInt8 (byteAt c1 16) * 3))) :
    (∃ r1 r2, readHeader c1 g1 = .error r1 ∧ readHeader c2 g2 = .error r2) ∨
    (∃ a b file, readHeader c1 g1 = .ok (a, file) ∧ readHeader c2 g2 = .ok (b, file) ∧
      a.asciiChars = b.asciiChars ∧ a.addSpace = b.addSpace ∧ a.sizeOver = b.sizeOver ∧
      fmtS a.title = fmtS b.title) := by
  unfold readHeader
  by_cases h17 : 17 ≤ c1.length
  · have h17' : 17 ≤ c2.length := by omega
    have e1 : fread 17 c1 = (some (c1.take 17), c1.drop 17) := by
      unfold fread; rw [if_neg (by omega), if_pos h17]
    have e2 : fread 17 c2 = (some (c1.take 17), c2.drop 17) := by
      unfold fread; rw [if_neg (by omega), if_pos h17', hhead]
    rw [e1, e2]
    simp only []
    have hb16 : byteAt (c1.take 17) 16 = byteAt c1 16 := byteAt_take _ _ _ (by omega)
    by_cases hm : strncmp ((c1.take 17).map Fin.val) magic 4 ≠ 0 ∨
        (toInt8 (byteAt (c1.take 17) 4) ≠ 0x11 ∧ toInt8 (byteAt (c1.take 17) 4) ≠ 0x12)
    · left
      rw [if_pos hm, if_pos hm]
      exact ⟨_, _, rfl, rfl⟩
    · rw [if_neg hm, if_neg hm]
      simp only [hb16]
      have hl1 : (c1.drop 17).length = (c2.drop 17).length := by
        simp only [List.length_drop]; omega
      by_cases hp : toSizeT (toInt8 (byteAt c1 16) * 3) = 0 ∨
          (c1.drop 17).length < toSizeT (toInt8 (byteAt c1 16) * 3)
      · left
        have p1 : (fread (toSizeT (toInt8 (byteAt c1 16) * 3)) (c1.drop 17)).1 = none := by
          unfold fread
          rcases hp with hp | hp
          · rw [if_pos hp]
          · rw [if_neg (by omega), if_neg (by omega)]
        have p2 : (fread (toSizeT (toInt8 (byteAt c1 16) * 3)) (c2.drop 17)).1 = none := by
          unfold fread
          rcases hp with hp | hp
          · rw [if_pos hp]
          · rw [if_neg (by omega), if_neg (by omega)]
        rcases q1 : fread (toSizeT (toInt8 (byteAt c1 16) * 3)) (c1.drop 17) with ⟨_ | x, f⟩
        · rcases q2 : fread (toSizeT (toInt8 (byteAt c1 16) * 3)) (c2.drop 17) with ⟨_ | y, f'⟩
          · exact ⟨_, _, rfl, rfl⟩
          · rw [q2] at p2; cases p2
        · rw [q1] at p1; cases p1
      · push_neg at hp
        obtain ⟨hp0, hple⟩ := hp
        have q1 : fread (toSizeT (toInt8 (byteAt c1 16) * 3)) (c1.drop 17)
            = (some ((c1.drop 17).take (toSizeT (toInt8 (byteAt c1 16) * 3))),
                c1.drop (17 + toSizeT (toInt8 (byteAt c1 16) * 3))) := by
          unfold fread
          rw [if_neg hp0, if_pos hple, List.drop_drop]
        have q2 : fread (toSizeT (toInt8 (byteAt c1 16) * 3)) (c2.drop 17)
            = (some ((c2.drop 17).take (toSizeT (toInt8 (byteAt c1 16) * 3))),
                c1.drop (17 + toSizeT (toInt8 (byteAt c1 16) * 3))) := by
          unfold fread
          rw [if_neg hp0, if_pos (by omega), List.drop_drop, htail]
        rw [q1, q2]
        simp only []
        rcases ht : fread (toUInt8 (fgetc (c1.drop (17 + toSizeT (toInt8 (byteAt c1 16) * 3)))).1)
            (fgetc (c1.drop (17 + toSizeT (toInt8 (byteAt c1 16) * 3)))).2 with ⟨_ | t, f3⟩
        · left
          exact ⟨_, _, rfl, rfl⟩
        · right
          exact ⟨_, _, _, rfl, rfl, rfl, rfl, rfl, fmtS_terminated _ _ _⟩
  · left
    have e1 : fread 17 c1 = (none, []) := by
      unfold fread; rw [if_neg (by omega), if_neg h17]
    have e2 : fread 17 c2 = (none, []) := by
      unfold fread; rw [if_neg (by omega), if_neg (by omega)]
    rw [e1, e2]
    exact ⟨_, _, rfl, rfl⟩

theorem glyphText_core (g1 g2 : Globals) (h : coreOf g1 = coreOf g2) :
    glyphText g1 = glyphText g2 := by
  funext gl
  have h1 : glyphText g1 gl = glyphText (coreOf g1) gl := rfl
  have h2 : glyphText g2 gl = glyphText (coreOf g2) gl := rfl
  rw [h1, h2, h]

theorem coreOf_eq (g1 g2 : Globals)
    (hp : g1.optionForceProportional = g2.optionForceProportional)
    (hx : g1.optionAddExtraSpace = g2.optionAddExtraSpace)
    (ha : g1.addSpace = g2.addSpace) (hs : g1.sizeOver = g2.sizeOver)
    (hv : g1.averageGlyphSize = g2.averageGlyphSize) : coreOf g1 = coreOf g2 := by
  unfold coreOf
  rw [hp, hx, ha, hs, hv]

/-- The emission pass on two inputs that differ in the palette bytes only,
from two states with the same options and average: both append the same text. -/
theorem emission_rel (c1 c2 : List Byte) (g1 g2 : Globals)
    (hlen : c1.length = c2.length) (hhead : c1.take 17 = c2.take 17)
    (htail : c1.drop (17 + toSizeT (toInt8 (byteAt c1 16) * 3))
      = c2.drop (17 + toSizeT (toInt8 (byteAt c1 16) * 3)))
    (hp : g1.optionForceProportional = g2.optionForceProportional)
    (hx : g1.optionAddExtraSpace = g2.optionAddExtraSpace)
    (hv : g1.averageGlyphSize = g2.averageGlyphSize) :
    ∃ t, (processBMF c1 0 g1).2.1.out = g1.out ++ t ∧
      (processBMF c2 0 g2).2.1.out = g2.out ++ t := by
  rcases readHeader_rel c1 c2 g1 g2 hlen hhead htail with
    ⟨r1, r2, e1, e2⟩ | ⟨a, b, file, e1, e2, hn, ha, hs, ht⟩
  · refine ⟨[], ?_, ?_⟩
    · rw [processBMF_error c1 0 g1 r1 e1, List.append_nil]
      exact (readHeader_frame c1 g1 r1 (Or.inl e1)).1
    · rw [processBMF_error c2 0 g2 r2 e2, List.append_nil]
      exact (readHeader_frame c2 g2 r2 (Or.inl e2)).1
  · refine ⟨headerLead a.title ++ charsLine a.asciiChars
      ++ (decodeGlyphs a.asciiChars file).1.flatMap (glyphText a), ?_, ?_⟩
    · exact processBMF_emit_out c1 g1 a file e1
    · rw [processBMF_emit_out c2 g2 b file e2]
      obtain ⟨-, a2, a3, -, -, a6⟩ := readHeader_frame c1 g1 (a, file) (Or.inr e1)
      obtain ⟨-, b2, b3, -, -, b6⟩ := readHeader_frame c2 g2 (b, file) (Or.inr e2)
      simp only at a2 a3 a6 b2 b3 b6
      have hcore : coreOf a = coreOf b :=
        coreOf_eq a b (by rw [a2, b2, hp]) (by rw [a3, b3, hx]) ha hs (by rw [a6, b6, hv])
      have hlead : headerLead a.title = headerLead b.title := by
        unfold headerLead
        rw [ht]
      rw [glyphText_core a b hcore, hlead, hn]

theorem decodedGlyphs_rel (c1 c2 : List Byte)
    (hlen : c1.length = c2.length) (hhead : c1.take 17 = c2.take 17)
    (htail : c1.drop (17 + toSizeT (toInt8 (byteAt c1 16) * 3))
      = c2.drop (17 + toSizeT (toInt8 (byteAt c1 16) * 3))) :
    decodedGlyphs c1 = decodedGlyphs c2 := by
  unfold decodedGlyphs
  rcases readHeader_rel c1 c2 (initGlobals 0 0) (initGlobals 0 0) hlen hhead htail with
    ⟨r1, r2, e1, e2⟩ | ⟨a, b, file, e1, e2, hn, -, -, -⟩
  · rw [e1, e2]
  · rw [e1, e2]
    simp only [hn]

/-- The estimator after an analysis pass, from non-negative accumulators: the
letter glyphs the pass decoded are added, and the average is recomputed at the
last of them. -/
theorem analysis_acc (content : List Byte) (a : Int) (ha : a ≠ 0) (g : Globals)
    (ht : 0 ≤ g.totalGlyphSize) (hc : 0 ≤ g.cntGlyphSize) :
    (processBMF content a g).2.1.totalGlyphSize
      = g.totalGlyphSize + (letterWidthSum (decodedGlyphs content) : Int) ∧
    (processBMF content a g).2.1.cntGlyphSize
      = g.cntGlyphSize + (letterCount (decodedGlyphs content) : Int) ∧
    (processBMF content a g).2.1.averageGlyphSize
      = (if letterCount (decodedGlyphs content) = 0 then g.averageGlyphSize
         else ((g.totalGlyphSize + (letterWidthSum (decodedGlyphs content) : Int)) * 2)
            / ((g.cntGlyphSize + (letterCount (decodedGlyphs content) : Int)) * 3)) := by
  unfold decodedGlyphs
  rcases readHeader_rel content content g (initGlobals 0 0) rfl rfl rfl with
    ⟨r1, r2, e1, e2⟩ | ⟨g', b, file, e1, e2, hn, -, -, -⟩
  · rw [e2, processBMF_error content a g r1 e1]
    obtain ⟨-, -, -, h4, h5, h6⟩ := readHeader_frame content g r1 (Or.inl e1)
    simp [h4, h5, h6, letterCount, letterWidthSum, letterGlyphs]
  · rw [e2, processBMF_analyze content a ha g g' file e1]
    obtain ⟨-, -, -, h4, h5, h6⟩ := readHeader_frame content g (g', file) (Or.inr e1)
    simp only at h4 h5 h6
    obtain ⟨-, -, -, -, k5, k6, k7⟩ := glyphLoop_analyze a ha g'.asciiChars file g'
      (by rw [h4]; exact ht) (by rw [h5]; exact hc)
    rw [h4] at k5 k7
    rw [h5] at k6 k7
    rw [h6] at k7
    simp only [← hn]
    exact ⟨k5, k6, k7⟩

/-- The emission pass appends a text fixed by the input, the two options and
the average it starts with. -/
theorem emission_out (content : List Byte) (g : Globals) :
    (processBMF content 0 g).2.1.out
      = g.out ++ emissionText g.optionForceProportional g.optionAddExtraSpace
          g.averageGlyphSize content := by
  obtain ⟨t, h1, h2⟩ := emission_rel content content g
    { initGlobals g.optionForceProportional g.optionAddExtraSpace with
      averageGlyphSize := g.averageGlyphSize } rfl rfl rfl rfl rfl rfl
  have h3 : emissionText g.optionForceProportional g.optionAddExtraSpace
      g.averageGlyphSize content = t := by
    unfold emissionText
    rw [h2]
    rfl
  rw [h1, h3]

/-- The emission pass leaves the two options alone. -/
theorem processBMF_emit_options (content : List Byte) (g : Globals) :
    (processBMF content 0 g).2.1.optionForceProportional = g.optionForceProportional ∧
    (processBMF content 0 g).2.1.optionAddExtraSpace = g.optionAddExtraSpace := by
  rcases hr : readHeader content g with r | ⟨g', file⟩
  · rw [processBMF_error content 0 g r hr]
    obtain ⟨-, h2, h3, -⟩ := readHeader_frame content g r (Or.inl hr)
    exact ⟨h2, h3⟩
  · rw [processBMF_emit content g g' file hr]
    obtain ⟨-, h2, h3, -⟩ := readHeader_frame content g (g', file) (Or.inr hr)
    simp only at h2 h3
    obtain ⟨-, -, -, k⟩ := glyphLoop_emit g'.asciiChars file
      (fprintf g' (headerLead g'.title ++ charsLine g'.asciiChars))
    have k1 := congrArg (fun s => s.optionForceProportional) k
    have k2 := congrArg (fun s => s.optionAddExtraSpace) k
    exact ⟨(show _ = g'.optionForceProportional from k1).trans h2,
      (show _ = g'.optionAddExtraSpace from k2).trans h3⟩

/-- The output of a conversion from zeroed accumulators: the text of the
emission pass under the options and the average the analysis pass ends with. -/
theorem conversion_out (g : Globals) (content : List Byte)
    (ht : g.totalGlyphSize = 0) (hc : g.cntGlyphSize = 0) (hv : g.averageGlyphSize = 0) :
    (conversion g content).out
      = g.out ++ emissionText g.optionForceProportional g.optionAddExtraSpace
          (if letterCount (decodedGlyphs content) = 0 then 0
           else ((letterWidthSum (decodedGlyphs content) : Int) * 2)
              / ((letterCount (decodedGlyphs content) : Int) * 3)) content := by
  unfold conversion
  obtain ⟨f1, f2, f3⟩ := processBMF_analyze_frame content 1 (by decide) g
    (by rw [ht]) (by rw [hc])
  obtain ⟨-, -, a3⟩ := analysis_acc content 1 (by decide) g (by rw [ht]) (by rw [hc])
  rw [ht, hc, hv] at a3
  simp only [zero_add] at a3
  rw [emission_out, f1, f2, f3, a3]

/-- A pixel depends on its bitmap entry only through whether the entry is 0. -/
theorem get_pixel_zero_congr (g : Globals) (b1 b2 : List Byte)
    (h : ∀ i, i < glyphWidth g * glyphHeight g → (byteAt b1 i = 0 ↔ byteAt b2 i = 0))
    (x y : Int) :
    get_pixel { g with bitmap := b1 } x y = get_pixel { g with bitmap := b2 } x y := by
  unfold get_pixel
  simp only []
  by_cases h1 : x < 0
  · simp [h1]
  by_cases h2 : x ≥ (byteAt g.tablo 0 : Int)
  · simp [h1, h2]
  by_cases h3 : y < 0
  · simp [h1, h2, h3]
  by_cases h4 : y ≥ (byteAt g.tablo 1 : Int)
  · simp [h1, h2, h3, h4]
  rw [if_neg h1, if_neg h2, if_neg h3, if_neg h4, if_neg h1, if_neg h2, if_neg h3, if_neg h4]
  lift x to ℕ using (by omega)
  lift y to ℕ using (by omega)
  have hidx : ((x : Int) + (y : Int) * ((byteAt g.tablo 0 : Nat) : Int)).toNat
      = x + y * byteAt g.tablo 0 := by
    have : ((x : Int) + (y : Int) * ((byteAt g.tablo 0 : Nat) : Int))
        = ((x + y * byteAt g.tablo 0 : Nat) : Int) := by push_cast; ring
    rw [this, Int.toNat_natCast]
  rw [hidx]
  have hlt : x + y * byteAt g.tablo 0 < glyphWidth g * glyphHeight g :=
    pixel_index_lt (byteAt g.tablo 0) (byteAt g.tablo 1) x y (by omega) (by omega)
  by_cases hz : byteAt b1 (x + y * byteAt g.tablo 0) = 0
  · rw [if_pos hz, if_pos ((h _ hlt).1 hz)]
  · rw [if_neg hz, if_neg (fun e => hz ((h _ hlt).2 e))]

theorem fread_append (d rest : List Byte) (h0 : d.length ≠ 0) :
    fread d.length (d ++ rest) = (some d, rest) := by
  unfold fread
  rw [if_neg h0, if_pos (by simp)]
  simp

/-- A well-formed record at the head of the stream is what `decodeGlyph` returns. -/
theorem decodeGlyph_bytes (gl : Glyph) (rest : List Byte) (hm : gl.metrics.length = 5)
    (hb : gl.bitmap.length = gl.width * gl.height) :
    decodeGlyph (glyphBytes gl ++ rest) = some (gl, rest) := by
  have e5 : List.take 5 (gl.metrics ++ (gl.bitmap ++ rest)) = gl.metrics := by
    rw [← hm]; simp
  have d5 : List.drop 5 (gl.metrics ++ (gl.bitmap ++ rest)) = gl.bitmap ++ rest := by
    rw [← hm]; simp
  have hb' : gl.bitmap.length = byteAt gl.metrics 0 * byteAt gl.metrics 1 := hb
  unfold decodeGlyph glyphBytes
  simp only [List.cons_append, List.append_assoc]
  rw [if_neg (by simp only [List.length_append]; omega), e5, d5,
    if_neg (by simp only [List.length_append]; omega), ← hb']
  simp

theorem decodeGlyphs_bytes (gs : List Glyph) : ∀ (rest : List Byte),
    (∀ gl ∈ gs, gl.metrics.length = 5 ∧ gl.bitmap.length = gl.width * gl.height) →
    decodeGlyphs gs.length (gs.flatMap glyphBytes ++ rest) = (gs, true, rest) := by
  induction gs with
  | nil => intro rest _; rfl
  | cons gl gs ih =>
    intro rest h
    have h1 := h gl (List.mem_cons_self _ _)
    have h2 := ih rest (fun x hx => h x (List.mem_cons_of_mem _ hx))
    simp only [List.flatMap_cons, List.append_assoc, List.length_cons, decodeGlyphs,
      decodeGlyph_bytes gl _ h1.1 h1.2, h2]

theorem decodeGlyphs_succ_some (n : Nat) (file rest : List Byte) (gl : Glyph)
    (h : decodeGlyph file = some (gl, rest)) :
    decodeGlyphs (n + 1) file
      = (gl :: (decodeGlyphs n rest).1, (decodeGlyphs n rest).2.1, (decodeGlyphs n rest).2.2) := by
  rw [decodeGlyphs, h]

theorem decodeGlyphs_short (gs : List Glyph) : ∀ (k : Nat),
    (∀ gl ∈ gs, gl.metrics.length = 5 ∧ gl.bitmap.length = gl.width * gl.height) →
    (decodeGlyphs (gs.length + k + 1) (gs.flatMap glyphBytes)).2.1 = false := by
  induction gs with
  | nil => intro k _; simp [decodeGlyphs, decodeGlyph]
  | cons gl gs ih =>
    intro k h
    have h1 := h gl (List.mem_cons_self _ _)
    have h2 := ih k (fun x hx => h x (List.mem_cons_of_mem _ hx))
    have e : (gl :: gs).length + k + 1 = (gs.length + k + 1) + 1 := by
      simp only [List.length_cons]; omega
    rw [e, List.flatMap_cons,
      decodeGlyphs_succ_some _ _ _ gl (decodeGlyph_bytes gl _ h1.1 h1.2)]
    exact h2

/-- One turn of the glyph loop leaves the metrics and the bitmap buffer as read. -/
theorem glyphAction_scratch (a : Int) (g : Globals) :
    (glyphAction a g).tablo = g.tablo ∧ (glyphAction a g).bitmap = g.bitmap := by
  rw [glyphAction_unfold]
  simp only [write_bdf_bitmap_eq]
  split_ifs <;> exact ⟨rfl, rfl⟩

/-- The header part on an input laid out as header, palette, title and count. -/
theorem readHeader_layout (hdr pal title : List Byte) (L l h : Byte) (tail : List Byte)
    (g : Globals) (hhdr : hdr.length = 17)
    (hmagic : (hdr.take 4).map Fin.val = [0xE1, 0xE6, 0xD5, 0x1A])
    (hver : byteAt hdr 4 = 0x11 ∨ byteAt hdr 4 = 0x12)
    (hc : 1 ≤ toInt8 (byteAt hdr 16))
    (hpal : pal.length = 3 * (toInt8 (byteAt hdr 16)).toNat)
    (hL : L.val ≠ 0) (htitle : title.length = L.val) :
    ∃ g', readHeader (hdr ++ pal ++ L :: title ++ l :: h :: tail) g = .ok (g', tail) ∧
      g'.asciiChars = l.val + 256 * h.val := by
  have hrange := toInt8_range (byteAt hdr 16) (byteAt_lt _ _)
  have hsz : toSizeT (toInt8 (byteAt hdr 16) * 3) = pal.length := by
    unfold toSizeT
    have e : (2 : Int) ^ 64 = 18446744073709551616 := by norm_num
    rw [e]
    have key : (toInt8 (byteAt hdr 16) * 3) % 18446744073709551616
        = toInt8 (byteAt hdr 16) * 3 := Int.emod_eq_of_lt (by omega) (by omega)
    rw [key, hpal]
    omega
  have e1 : fread 17 (hdr ++ pal ++ L :: title ++ l :: h :: tail)
      = (some hdr, pal ++ (L :: (title ++ l :: h :: tail))) := by
    have := fread_append hdr (pal ++ (L :: (title ++ l :: h :: tail))) (by omega)
    rw [hhdr] at this
    simpa [List.append_assoc] using this
  have e2 : fread (toSizeT (toInt8 (byteAt hdr 16) * 3)) (pal ++ (L :: (title ++ l :: h :: tail)))
      = (some pal, L :: (title ++ l :: h :: tail)) := by
    rw [hsz]
    exact fread_append pal _ (by omega)
  have e3 : fread L.val (title ++ l :: h :: tail) = (some title, l :: h :: tail) := by
    rw [← htitle]
    exact fread_append title _ (by omega)
  have hcond : ¬ (strncmp (hdr.map Fin.val) magic 4 ≠ 0 ∨
      (toInt8 (byteAt hdr 4) ≠ 0x11 ∧ toInt8 (byteAt hdr 4) ≠ 0x12)) := by
    have hz : strncmp (hdr.map Fin.val) magic 4 = 0 := by
      rw [strncmp_magic_take, ← List.map_take]
      exact hmagic
    rintro (h1 | ⟨h2, h3⟩)
    · exact h1 hz
    · rcases hver with hv | hv
      · exact h2 ((toInt8_eq_17 _ (byteAt_lt _ _)).2 hv)
      · exact h3 ((toInt8_eq_18 _ (byteAt_lt _ _)).2 hv)
  have hw : readWord (l :: h :: tail) = (l.val + 256 * h.val, tail) := by
    have h1 := l.isLt
    have h2 := h.isLt
    simp only [readWord, fgetc, toUInt8_val]
    congr 1
    omega
  unfold readHeader
  rw [e1]
  simp only []
  rw [if_neg hcond]
  simp only [e2, fgetc, toUInt8_val, e3, hw]
  exact ⟨_, rfl, rfl⟩

/-- C15. Little-endian glyph count: on two bytes `l`, `h`, `readWord` returns
`l + 256*h`, at most 65535, and leaves what follows them. On an input laid out
as header, palette, title, `l`, `h` and a tail, the header part stores that
value in `asciiChars` and `processBMF` runs the glyph loop on the tail with
that number of turns. The glyph loop with `n` turns decodes exactly `n`
records: on `n` well-formed records it returns 1, leaves unread exactly what
follows them and (in the emission pass) has written one record for each, and
on a stream that ends sooner it returns 0. So a pass over such an input with
`l + 256*h` records returns 1 with one record written per glyph. -/
theorem little_endian_count :
    (∀ (l h : Byte) (rest : List Byte),
      readWord (l :: h :: rest) = (l.val + 256 * h.val, rest) ∧ l.val + 256 * h.val ≤ 65535) ∧
    (∀ (hdr pal title : List Byte) (L l h : Byte) (tail : List Byte) (a : Int) (g : Globals),
      hdr.length = 17 → (hdr.take 4).map Fin.val = [0xE1, 0xE6, 0xD5, 0x1A] →
      (byteAt hdr 4 = 0x11 ∨ byteAt hdr 4 = 0x12) → 1 ≤ toInt8 (byteAt hdr 16) →
      pal.length = 3 * (toInt8 (byteAt hdr 16)).toNat → L.val ≠ 0 → title.length = L.val →
        ∃ g', readHeader (hdr ++ pal ++ L :: title ++ l :: h :: tail) g = .ok (g', tail) ∧
          g'.asciiChars = l.val + 256 * h.val ∧
          processBMF (hdr ++ pal ++ L :: title ++ l :: h :: tail) a g
            = glyphLoop a (l.val + 256 * h.val) tail
                (if a = 0 then write_bdf_header g' else g')) ∧
    (∀ (a : Int) (gs : List Glyph) (rest : List Byte) (g : Globals),
      (∀ gl ∈ gs, gl.metrics.length = 5 ∧ gl.bitmap.length = gl.width * gl.height) →
        (glyphLoop a gs.length (gs.flatMap glyphBytes ++ rest) g).1 = 1 ∧
        (glyphLoop a gs.length (gs.flatMap glyphBytes ++ rest) g).2.2 = rest ∧
        (glyphLoop 0 gs.length (gs.flatMap glyphBytes ++ rest) g).2.1.out
          = g.out ++ (gs.map (fun gl => charText (withGlyph g gl) gl.encoding.val)).flatten ∧
        (gs.map (fun gl => charText (withGlyph g gl) gl.encoding.val)).length = gs.length) ∧
    (∀ (a : Int) (gs : List Glyph) (k : Nat) (g : Globals),
      (∀ gl ∈ gs, gl.metrics.length = 5 ∧ gl.bitmap.length = gl.width * gl.height) →
        (glyphLoop a (gs.length + k + 1) (gs.flatMap glyphBytes) g).1 = 0) ∧
    (∀ (hdr pal title : List Byte) (L l h : Byte) (gs : List Glyph) (rest : List Byte)
      (g : Globals),
      hdr.length = 17 → (hdr.take 4).map Fin.val = [0xE1, 0xE6, 0xD5, 0x1A] →
      (byteAt hdr 4 = 0x11 ∨ byteAt hdr 4 = 0x12) → 1 ≤ toInt8 (byteAt hdr 16) →
      pal.length = 3 * (toInt8 (byteAt hdr 16)).toNat → L.val ≠ 0 → title.length = L.val →
      gs.length = l.val + 256 * h.val →
      (∀ gl ∈ gs, gl.metrics.length = 5 ∧ gl.bitmap.length = gl.width * gl.height) →
        (processBMF (hdr ++ pal ++ L :: title ++ l :: h :: (gs.flatMap glyphBytes ++ rest)) 1 g).1
          = 1 ∧
        (processBMF (hdr ++ pal ++ L :: title ++ l :: h :: (gs.flatMap glyphBytes ++ rest)) 0 g).1
          = 1 ∧
        (processBMF (hdr ++ pal ++ L :: title ++ l :: h :: (gs.flatMap glyphBytes ++ rest)) 0 g).2.2
          = rest ∧
        ∃ g', (processBMF
            (hdr ++ pal ++ L :: title ++ l :: h :: (gs.flatMap glyphBytes ++ rest)) 0 g).2.1.out
          = g.out ++ (headerLead g'.title ++ charsLine (l.val + 256 * h.val)
              ++ (gs.map (fun gl => charText (withGlyph g' gl) gl.encoding.val)).flatten)) ∧
    (∀ (a : Int) (n : Nat) (file : List Byte) (g : Globals),
      (glyphLoop a n file g).1 = 1 → (decodeGlyphs n file).1.length = n) := by
  refine ⟨?_, ?_, ?_, ?_, ?_, ?_⟩
  · intro l h rest
    have h1 := l.isLt
    have h2 := h.isLt
    refine ⟨?_, by omega⟩
    simp only [readWord, fgetc, toUInt8_val]
    congr 1
    omega
  · intro hdr pal title L l h tail a g hhdr hmagic hver hc hpal hL htitle
    obtain ⟨g', hr, hn⟩ := readHeader_layout hdr pal title L l h tail g hhdr hmagic hver hc
      hpal hL htitle
    refine ⟨g', hr, hn, ?_⟩
    rw [processBMF_loop _ a g g' tail hr, hn]
  · intro a gs rest g hwf
    have hdec := decodeGlyphs_bytes gs rest hwf
    obtain ⟨r1, r2⟩ := glyphLoop_ret a gs.length (gs.flatMap glyphBytes ++ rest) g
    obtain ⟨-, -, e3, -⟩ := glyphLoop_emit gs.length (gs.flatMap glyphBytes ++ rest) g
    rw [hdec] at r1 r2 e3
    refine ⟨by simpa using r1, r2, ?_, by simp⟩
    rw [e3]
    rfl
  · intro a gs k g hwf
    have hs := decodeGlyphs_short gs k hwf
    have r1 := (glyphLoop_ret a (gs.length + k + 1) (gs.flatMap glyphBytes) g).1
    rw [hs] at r1
    simpa using r1
  · intro hdr pal title L l h gs rest g hhdr hmagic hver hc hpal hL htitle hlen hwf
    obtain ⟨g', hr, hn⟩ := readHeader_layout hdr pal title L l h
      (gs.flatMap glyphBytes ++ rest) g hhdr hmagic hver hc hpal hL htitle
    have hdec := decodeGlyphs_bytes gs rest hwf
    have hn' : g'.asciiChars = gs.length := by rw [hn, hlen]
    have ret : ∀ a : Int, (processBMF
        (hdr ++ pal ++ L :: title ++ l :: h :: (gs.flatMap glyphBytes ++ rest)) a g).1 = 1 ∧
        (processBMF
        (hdr ++ pal ++ L :: title ++ l :: h :: (gs.flatMap glyphBytes ++ rest)) a g).2.2
          = rest := by
      intro a
      rw [processBMF_loop _ a g g' _ hr, hn']
      obtain ⟨r1, r2⟩ := glyphLoop_ret a gs.length (gs.flatMap glyphBytes ++ rest)
        (if a = 0 then write_bdf_header g' else g')
      rw [hdec] at r1 r2
      exact ⟨by simpa using r1, r2⟩
    refine ⟨(ret 1).1, (ret 0).1, (ret 0).2, g', ?_⟩
    rw [processBMF_emit_out _ g g' _ hr, hn', hdec, ← hlen]
    rfl
  · intro a n file g h
    apply (decodeGlyphs_length n file).1
    have h1 := (glyphLoop_ret a n file g).1
    rw [h] at h1
    by_cases hb : (decodeGlyphs n file).2.1 = true
    · exact hb
    · rw [if_neg hb] at h1; omega

/-- Witness of C15: the glyph loop with three turns on the three records of
the example file, followed by one more byte. -/
theorem little_endian_count_witness :
    (glyphLoop 0 exGlyphs.length (exGlyphs.flatMap glyphBytes ++ [7]) (initGlobals 0 0)).1 = 1 ∧
    (glyphLoop 0 exGlyphs.length (exGlyphs.flatMap glyphBytes ++ [7]) (initGlobals 0 0)).2.2
      = [7] ∧
    (glyphLoop 0 exGlyphs.length (exGlyphs.flatMap glyphBytes ++ [7]) (initGlobals 0 0)).2.1.out
      = (initGlobals 0 0).out
        ++ (exGlyphs.map
            (fun gl => charText (withGlyph (initGlobals 0 0) gl) gl.encoding.val)).flatten ∧
    (exGlyphs.map
      (fun gl => charText (withGlyph (initGlobals 0 0) gl) gl.encoding.val)).length
        = exGlyphs.length :=
  little_endian_count.2.2.1 0 exGlyphs [7] (initGlobals 0 0) (by decide)

/-- The estimator on a state within the bounds: the division is defined, by
the incremented count, and the new state is within the bounds. -/
theorem estimatorUpdate_defined (g : Globals) (h : AccInv g) :
    ∃ g', estimatorUpdate g (byteAt g.tablo 0) = some g' ∧
      g'.totalGlyphSize = g.totalGlyphSize + (byteAt g.tablo 0 : Int) ∧
      g'.cntGlyphSize = g.cntGlyphSize + 1 ∧ 1 ≤ g'.cntGlyphSize ∧
      cDiv (g'.totalGlyphSize * 2) (g'.cntGlyphSize * 3) = some g'.averageGlyphSize ∧
      AccInv g' := by
  obtain ⟨hc, ht, hb, -, -⟩ := h
  have hne : ¬ (g.cntGlyphSize + 1 = 0) := by omega
  have hw := byteAt_lt g.tablo 0
  have hpos : 0 < (g.cntGlyphSize + 1) * 3 := by omega
  have hnum : 0 ≤ (g.totalGlyphSize + (byteAt g.tablo 0 : Int)) * 2 := by omega
  refine ⟨_, estimatorUpdate_of_ne g _ hne, rfl, rfl, ?_, ?_, ?_⟩
  · show 1 ≤ g.cntGlyphSize + 1
    omega
  · exact cDiv_of_ne ((g.totalGlyphSize + (byteAt g.tablo 0 : Int)) * 2)
      ((g.cntGlyphSize + 1) * 3) (ne_of_gt hpos)
  · unfold AccInv
    simp only []
    rw [Int.tdiv_eq_ediv hnum (le_of_lt hpos)]
    refine ⟨by omega, by omega, by omega, Int.ediv_nonneg hnum (le_of_lt hpos), ?_⟩
    apply Int.ediv_le_of_le_mul hpos
    omega

theorem exManyColors_length : exManyColors.length = 622 := by
  unfold exManyColors
  simp only [List.length_append, List.length_replicate, List.length_cons, List.length_nil]

/-- The palette read does not overrun on a file of at most 785 bytes. -/
theorem paletteOverrun_false (content : List Byte) (h : content.length ≤ 785) :
    paletteOverrun content = false := by
  unfold paletteOverrun
  have : ¬ (17 + 768 < content.length) := by omega
  simp [this]

/-- A pass on a file with a negative `numColors` (128 or more at offset 16)
whose palette read does not overrun: the read fails, the pass returns 0 and
writes nothing. -/
theorem processBMF_negative (content : List Byte) (a : Int) (g : Globals)
    (hneg : toInt8 (byteAt content 16) < 0) (hno : paletteOverrun content = false) :
    (processBMF content a g).1 = 0 ∧ (processBMF content a g).2.1.out = g.out := by
  have hsize : content.length < 2 ^ 63 := by
    unfold paletteOverrun at hno
    simp only [hneg, decide_True, Bool.true_and, decide_eq_false_iff_not, not_lt] at hno
    have : (785 : Nat) < 2 ^ 63 := by norm_num
    omega
  have hrange := toInt8_range (byteAt content 16) (byteAt_lt _ _)
  rcases hr : readHeader content g with r | ⟨g', file⟩
  · rw [processBMF_error content a g r hr]
    exact ⟨rfl, (readHeader_frame content g r (Or.inl hr)).1⟩
  · exfalso
    obtain ⟨pal, title, L, tail, hcont, -, -, -, hnc, hpl, hp0, -⟩ :=
      readHeader_ok content g g' file hr
    have hle : pal.length ≤ content.length := by
      have := congrArg List.length hcont
      simp only [List.length_append, List.length_cons] at this
      omega
    have hr2 : -128 ≤ g'.numColors ∧ g'.numColors ≤ 127 := by rw [hnc]; exact hrange
    have := (toSizeT_numColors g'.numColors pal.length content.length hr2.1 hr2.2 hpl hp0
      hle hsize).1
    rw [hnc] at this
    omega

/-- C17 on the code. The header is read into `int8_t buffer[18]` and
`numColors = buffer[16]`, so the byte at offset 16 is decoded as a signed
value. The file `exManyColors` (622 bytes: a header with 200 at offset 16, 600
palette bytes, the title `hi`, no glyph) passes the magic and version check;
its decoded `numColors` is -56, outside `[0,256]`; the size handed to `fread`
is 2^64 - 168, not 600; the read does not overrun `palette` (605 bytes
follow the header) and fails, so both passes return 0 and nothing is written.
Read as unsigned, as the bytes of `tablo` are, the same byte is 200, and
200 colours fit `palette[256*3]`. For every input that passes the check the
decoded `numColors` is the signed byte, negative from 128 on, and at most 127;
a negative `numColors` without overrun makes the pass return 0, and the
palette read overruns only with more than 768 bytes after the header and a
requested size above 768. The file `exNoColors` (`numColors = 0`, no palette
byte, the title `hi`, no glyph) is not decoded either: `fread` of size 0
returns 0 and both passes return 0 with nothing written. -/
theorem numColors_signed_read :
    ((exManyColors.take 4).map Fin.val = [0xE1, 0xE6, 0xD5, 0x1A] ∧
      byteAt exManyColors 4 = 0x11 ∧ byteAt exManyColors 16 = 200 ∧
      exManyColors.length = 622) ∧
    (∀ a : Int, (processBMF exManyColors a (initGlobals 0 0)).2.1.numColors = -56 ∧
      ¬ (0 ≤ (processBMF exManyColors a (initGlobals 0 0)).2.1.numColors)) ∧
    (toSizeT (toInt8 (byteAt exManyColors 16) * 3) = 2 ^ 64 - 168 ∧
      toUInt8 (toInt8 (byteAt exManyColors 16)) = 200 ∧
      toUInt8 (toInt8 (byteAt exManyColors 16)) * 3 ≤ 256 * 3) ∧
    paletteOverrun exManyColors = false ∧
    (∀ a : Int, (processBMF exManyColors a (initGlobals 0 0)).1 = 0 ∧
      (processBMF exManyColors a (initGlobals 0 0)).2.1.out = []) ∧
    (main 0 0 exManyColors).out = [] ∧
    (∀ (content : List Byte) (a : Int) (g : Globals), 17 ≤ content.length →
      (content.take 4).map Fin.val = [0xE1, 0xE6, 0xD5, 0x1A] →
      (byteAt content 4 = 0x11 ∨ byteAt content 4 = 0x12) →
        (processBMF content a g).2.1.numColors = toInt8 (byteAt content 16) ∧
        (128 ≤ byteAt content 16 → (processBMF content a g).2.1.numColors < 0) ∧
        -128 ≤ (processBMF content a g).2.1.numColors ∧
        (processBMF content a g).2.1.numColors ≤ 127) ∧
    (∀ (content : List Byte) (a : Int) (g : Globals),
      toInt8 (byteAt content 16) < 0 → paletteOverrun content = false →
        (processBMF content a g).1 = 0 ∧ (processBMF content a g).2.1.out = g.out) ∧
    (∀ content : List Byte, paletteOverrun content = true →
      768 < content.length - 17 ∧ 768 < toSizeT (toInt8 (byteAt content 16) * 3)) ∧
    ((exNoColors.take 4).map Fin.val = [0xE1, 0xE6, 0xD5, 0x1A] ∧
      byteAt exNoColors 4 = 0x11 ∧ byteAt exNoColors 16 = 0 ∧
      toSizeT (toInt8 (byteAt exNoColors 16) * 3) = 0 ∧
      fread 0 (exNoColors.drop 17) = (none, exNoColors.drop 17) ∧
      (processBMF exNoColors 1 (initGlobals 0 0)).1 = 0 ∧
      (processBMF exNoColors 0 (initGlobals 0 0)).1 = 0 ∧
      (processBMF exNoColors 0 (initGlobals 0 0)).2.1.numColors = 0 ∧
      (main 0 0 exNoColors).out = []) := by
  have h16 : byteAt exManyColors 16 = 200 := by decide
  have hneg : toInt8 (byteAt exManyColors 16) < 0 := by rw [h16]; decide
  have hno : paletteOverrun exManyColors = false :=
    paletteOverrun_false _ (by rw [exManyColors_length]; omega)
  have hnum : ∀ a : Int, (processBMF exManyColors a (initGlobals 0 0)).2.1.numColors = -56 := by
    intro a
    rw [processBMF_numColors exManyColors a (initGlobals 0 0)
      (by rw [exManyColors_length]; omega) (by decide) (Or.inl (by decide)), h16]
    decide
  refine ⟨⟨by decide, by decide, h16, exManyColors_length⟩, ?_, ?_, hno, ?_, ?_, ?_, ?_, ?_, ?_⟩
  · intro a
    refine ⟨hnum a, ?_⟩
    rw [hnum a]
    decide
  · rw [h16]
    refine ⟨?_, by decide, by decide⟩
    unfold toSizeT toInt8
    norm_num
    rfl
  · intro a
    exact processBMF_negative exManyColors a (initGlobals 0 0) hneg hno
  · unfold main
    simp only []
    have h1 := processBMF_negative exManyColors 1 (initGlobals 0 0) hneg hno
    have h0 := processBMF_negative exManyColors 0
      (processBMF exManyColors 1 (initGlobals 0 0)).2.1 hneg hno
    rw [h0.2, h1.2]
    rfl
  · intro content a g hlen hmagic hver
    have hrange := toInt8_range (byteAt content 16) (byteAt_lt _ _)
    have hn := processBMF_numColors content a g hlen hmagic hver
    rw [hn]
    refine ⟨rfl, ?_, hrange.1, hrange.2⟩
    intro h
    unfold toInt8
    have := byteAt_lt content 16
    rw [if_neg (by omega)]
    omega
  · intro content a g hneg' hno'
    exact processBMF_negative content a g hneg' hno'
  · intro content h
    unfold paletteOverrun at h
    simp only [Bool.and_eq_true, decide_eq_true_eq] at h
    obtain ⟨h1, h2⟩ := h
    have hrange := toInt8_range (byteAt content 16) (byteAt_lt _ _)
    refine ⟨by omega, ?_⟩
    unfold toSizeT
    have e : (2 : Int) ^ 64 = 18446744073709551616 := by norm_num
    rw [e]
    have key : (toInt8 (byteAt content 16) * 3) % 18446744073709551616
        = toInt8 (byteAt content 16) * 3 + 18446744073709551616 := by
      rw [← Int.add_emod_self]
      exact Int.emod_eq_of_lt (by omega) (by omega)
    rw [key]
    omega
  · refine ⟨by decide, by decide, by decide, by decide, by decide, by decide, by decide,
      by decide, by decide⟩

end Bmf2Bdf
